import Mathlib

/-!
Verification of the mutagen core (files `mutagen/_util.py` and `mutagen/apev2.py`).

A file is modelled as a `List Nat` of byte values; file positions are natural
numbers (or `Int` where the Python code can compute negative positions).
Fallible Python code (assertions, uncaught exceptions) is modelled with
`Option` / an explicit `ok` flag, produced before any mutation exactly where
the Python checks run before any write.
-/

namespace Mutagen

abbrev Bytes := List Nat

/-- Contiguous read of `n` bytes starting at position `p`; shorter than `n`
near end-of-file, like a Python `read` after a `seek`. -/
def slice (l : Bytes) (p n : Nat) : Bytes := (l.drop p).take n

/-- A Python file-object `write` of `bs` at position `p`: overwrites in place,
extends the file at the end, and zero-fills any gap between the old
end-of-file and `p`.  Writing zero bytes leaves the file untouched. -/
def fileWrite (f : Bytes) (p : Nat) (bs : Bytes) : Bytes :=
  if bs = [] then f
  else f.take p ++ List.replicate (p - f.length) 0 ++ bs ++ f.drop (p + bs.length)

/-- Python `truncate(n)` after `seek(n)`: cut the file at `n`, or zero-extend
it to length `n` when `n` is past end-of-file. -/
def pyTruncate (f : Bytes) (n : Nat) : Bytes :=
  f.take n ++ List.replicate (n - f.length) 0

/-- `mmap.move(dest, src, cnt)`: copy `cnt` bytes from `src` to `dest`
(overlap-safe, as if through a buffer).  Callers keep it in range. -/
def memmove (data : Bytes) (dest src cnt : Nat) : Bytes :=
  fileWrite data dest (slice data src cnt)

/-- `struct.unpack("<I", b)`: little-endian unsigned 32-bit read; `none`
models the `struct.error` raised when fewer than 4 bytes were read. -/
def uint_le : Bytes → Option Nat
  | [a, b, c, d] => some (a + 256 * b + 65536 * c + 16777216 * d)
  | _ => none

/-- The four little-endian bytes of `n` (the body of `struct.pack("<I", n)`). -/
def uint32pure (n : Nat) : Bytes :=
  [n % 256, n / 256 % 256, n / 65536 % 256, n / 16777216 % 256]

/-- `struct.pack("<I", n)`: `none` models the `struct.error` raised when `n`
does not fit in 32 bits. -/
def uint32le (n : Nat) : Option Bytes :=
  if n < 4294967296 then some (uint32pure n) else none

/-! ## Splice primitive (`mutagen/_util.py`: `insert_bytes`, `delete_bytes`)

Both operations try an `mmap` block move first and fall back to a bounded
memory streaming loop when mapping is unavailable or fails.  The outcome
record carries an `ok` flag: `ok = false` models an `assert` failing, which
in the source happens before any byte of the file is written. -/

structure SpliceOutcome where
  ok : Bool
  file : Bytes
deriving DecidableEq

/-- The `mmap` path of `insert_bytes` for `offset ≤ filesize`: the file has
already been padded with `size` zero bytes at the end, then
`memmap.move(offset + size, offset, movesize)` runs with
`movesize = filesize - offset`. -/
def insert_mmap (F : Bytes) (size offset : Nat) : Bytes :=
  memmove (F ++ List.replicate size 0) (offset + size) offset (F.length - offset)

/-- The padding loop of the streaming fallback of `insert_bytes`: append
`padsize` zero bytes in chunks of at most `bufSize`.  (With `bufSize = 0` the
Python loop would never make progress; the model stops instead, and every
theorem about the fallback assumes `0 < bufSize`.) -/
def insPadLoop (f : Bytes) (padsize bufSize : Nat) : Bytes :=
  if padsize = 0 then f
  else if min bufSize padsize = 0 then f
  else insPadLoop (fileWrite f f.length (List.replicate (min bufSize padsize) 0))
    (padsize - min bufSize padsize) bufSize
termination_by padsize
decreasing_by omega

/-- The backward block-move loop of the streaming fallback of `insert_bytes`.
`pos` points at the end of the data still to be moved (`nextpos + thismove` in
the source); each step reads `thismove = min bufSize movesize` bytes ending at
`pos` and rewrites them `size` bytes further forward. -/
def insMoveLoop (f : Bytes) (size bufSize movesize pos : Nat) : Bytes :=
  if movesize = 0 then f
  else if min bufSize movesize = 0 then f
  else insMoveLoop
    (fileWrite f (pos - min bufSize movesize + size)
      (slice f (pos - min bufSize movesize) (min bufSize movesize)))
    size bufSize (movesize - min bufSize movesize) (pos - min bufSize movesize)
termination_by movesize
decreasing_by omega

/-- The streaming fallback of `insert_bytes` for `offset ≤ filesize`: the
source truncates the file back to `filesize` (undoing the pre-`mmap` zero
padding), re-pads it with the padding loop, and then runs the backward move
loop from `pos = filesize` with `movesize = filesize - offset`. -/
def insert_fallback (F : Bytes) (size offset bufSize : Nat) : Bytes :=
  insMoveLoop (insPadLoop F size bufSize) size bufSize (F.length - offset) F.length

/-- What `insert_bytes` does when `offset > filesize` (no check rejects this):
`memmap.move` raises `ValueError` on the negative `movesize`, the fallback
runs, and its single loop iteration has `thismove = movesize < 0`, so it
seeks forward to `offset`, reads to end-of-file, seeks a further
`offset - filesize + size` forward and writes what it read there (a no-op
when the read was empty). -/
def insert_oob (F : Bytes) (size offset : Nat) : Bytes :=
  let P := F ++ List.replicate size 0
  let d := P.drop offset
  let posAfterRead := if offset ≤ P.length then P.length else offset
  fileWrite P (posAfterRead + (offset - F.length) + size) d

/-- `insert_bytes(fobj, size, offset)` from `mutagen/_util.py`.  The asserts
`0 < size` and `0 ≤ offset` run before any write (`0 ≤ offset` is vacuous
for `Nat`); there is no check that `offset` is within the file.  When
`offset ≤ filesize` the `mmap` move succeeds and is taken (the streaming
fallback computes the same bytes: see the strategy-equivalence theorem);
when `offset > filesize` the move raises and the fallback's out-of-bounds
behaviour happens. -/
def insert_bytes (F : Bytes) (size offset bufSize : Nat) : SpliceOutcome :=
  if size = 0 then ⟨false, F⟩
  else if offset ≤ F.length then ⟨true, insert_mmap F size offset⟩
  else ⟨true, insert_oob F size offset⟩

/-- The `mmap` path of `delete_bytes`: when `movesize > 0`,
`memmap.move(offset, offset + size, movesize)` runs, and in every case the
file is then truncated to `filesize - size`. -/
def delete_mmap (F : Bytes) (size offset : Nat) : Bytes :=
  (if 0 < F.length - offset - size
   then memmove F offset (offset + size) (F.length - offset - size)
   else F).take (F.length - size)

/-- The streaming fallback loop of `delete_bytes`: repeatedly read up to
`bufSize` bytes at `offset + size` and write them back at `offset`,
advancing `offset`, until the read comes back empty. -/
def delMoveLoop (f : Bytes) (size bufSize offset : Nat) : Bytes :=
  if h : slice f (offset + size) bufSize = [] then f
  else delMoveLoop (fileWrite f offset (slice f (offset + size) bufSize)) size bufSize
    (offset + (slice f (offset + size) bufSize).length)
termination_by f.length - offset
decreasing_by
  have hne : offset + size < f.length := by
    by_contra hc
    exact h (by simp [slice, List.drop_eq_nil_of_le (le_of_not_lt hc)])
  have h1 : 0 < (slice f (offset + size) bufSize).length := List.length_pos.mpr h
  have hb : (slice f (offset + size) bufSize).length ≤ f.length - (offset + size) := by
    simp [slice, List.length_take]
  simp only [fileWrite, if_neg h, List.length_append, List.length_take,
    List.length_replicate, List.length_drop]
  omega

/-- The streaming fallback of `delete_bytes`: run the move loop when
`movesize > 0`, then truncate to `filesize - size`. -/
def delete_fallback (F : Bytes) (size offset bufSize : Nat) : Bytes :=
  (if 0 < F.length - offset - size
   then delMoveLoop F size bufSize offset
   else F).take (F.length - size)

/-- `delete_bytes(fobj, size, offset)` from `mutagen/_util.py`.  The asserts
`0 < size`, `0 ≤ offset` and `0 ≤ movesize` (i.e. `offset + size ≤ filesize`)
run before any write.  On the valid domain the `mmap` move succeeds and is
taken (the fallback computes the same bytes: see the strategy-equivalence
theorem). -/
def delete_bytes (F : Bytes) (size offset bufSize : Nat) : SpliceOutcome :=
  if size = 0 ∨ F.length < offset + size then ⟨false, F⟩
  else ⟨true, delete_mmap F size offset⟩

/-! ## Flat-tag locator (`mutagen/apev2.py`: `_APEv2Data`)

Byte constants: `b"APETAGEX"`, `b"TAG"`, `b"LYRICS200"`. -/

def APETAGEX : Bytes := [65, 80, 69, 84, 65, 71, 69, 88]

def ID3TAG : Bytes := [84, 65, 71]

def LYRICS200 : Bytes := [76, 89, 82, 73, 67, 83, 50, 48, 48]

def HAS_HEADER : Nat := 2147483648

def HAS_NO_FOOTER : Nat := 1073741824

def IS_HEADER : Nat := 536870912

/-- Bytes stripped by Python `int()` before parsing (ASCII whitespace). -/
def isPyStripByte (b : Nat) : Bool := b = 32 || (9 ≤ b && b ≤ 13)

/-- A nonempty all-decimal-digit byte string, as a number. -/
def parseDigits (ds : Bytes) : Option Nat :=
  if ds = [] then none
  else if ds.all (fun b => 48 ≤ b && b ≤ 57) then
    some (ds.foldl (fun acc b => acc * 10 + (b - 48)) 0)
  else none

/-- Python `int(bytes)` as used on the 6-byte Lyrics3v2 size field: strip
surrounding ASCII whitespace, allow one optional sign, then decimal digits;
`none` models the `ValueError` on anything else. -/
def parseIntBytes (bs : Bytes) : Option Int :=
  match ((bs.dropWhile isPyStripByte).reverse.dropWhile isPyStripByte).reverse with
  | 43 :: ds => (parseDigits ds).map (fun n => (n : Int))
  | 45 :: ds => (parseDigits ds).map (fun n => -(n : Int))
  | ds => (parseDigits ds).map (fun n => (n : Int))

/-- What `_APEv2Data.__find_metadata` sets: a footer offset, or a header at
offset 0 (with `is_at_start`), or nothing. -/
structure FindResult where
  footer : Option Nat
  header : Option Nat
  isAtStart : Bool
deriving DecidableEq

/-- The final start-of-file check of `__find_metadata`: a magic cookie at
offset 0 marks a tag at the start. -/
def findStep3 (file : Bytes) : FindResult :=
  if slice file 0 8 = APETAGEX then ⟨none, some 0, true⟩ else ⟨none, none, false⟩

/-- `_APEv2Data.__find_metadata`.  Seeks that would move before offset 0
raise `IOError` in the source: the first one (`seek(-32, 2)`) returns with
nothing found, the ones inside the legacy-trailer block fall through to the
start-of-file check. -/
def find_metadata (file : Bytes) : FindResult :=
  if file.length < 32 then ⟨none, none, false⟩
  else if slice file (file.length - 32) 8 = APETAGEX then
    ⟨some (file.length - 32), none, false⟩
  else if file.length < 128 then findStep3 file
  else if slice file (file.length - 128) 3 = ID3TAG then
    if file.length < 160 then findStep3 file
    else if slice file (file.length - 160) 8 = APETAGEX then
      ⟨some (file.length - 160), none, false⟩
    else if slice file (file.length - 137) 9 = LYRICS200 then
      match parseIntBytes (slice file (file.length - 143) 6) with
      | none => findStep3 file
      | some off =>
        if (file.length : Int) - 175 - off < 0 then findStep3 file
        else if slice file ((file.length : Int) - 175 - off).toNat 8 = APETAGEX then
          ⟨some ((file.length : Int) - 175 - off).toNat, none, false⟩
        else findStep3 file
    else findStep3 file
  else findStep3 file

/-- The loop of `_APEv2Data.__fix_brokenness`, with explicit fuel (each pass
moves `start` down by 24, so `start` itself is enough fuel and the entry
point below never exhausts it). -/
def fixBrokennessAux (file : Bytes) : Nat → Nat → Nat
  | 0, start => start
  | fuel + 1, start =>
    if start = 0 then 0
    else if start < 24 then start
    else if slice file (start - 24) 8 = APETAGEX then
      fixBrokennessAux file fuel (start - 24)
    else start

/-- `_APEv2Data.__fix_brokenness`: walk backward in 24-byte steps from the
computed start as long as a stray magic cookie (left by a buggy legacy
writer) is found there; stop at offset 0, or when fewer than 24 bytes remain
before the current start (the relative seek raises and the loop breaks). -/
def fixBrokenness (file : Bytes) (start : Nat) : Nat :=
  fixBrokennessAux file start start

/-- The fields of a `_APEv2Data` object after `__init__`. -/
structure APEData where
  start : Option Nat := none
  header : Option Nat := none
  data : Option Nat := none
  footer : Option Nat := none
  endPos : Option Nat := none
  version : Bytes := []
  size : Option Nat := none
  items : Nat := 0
  flags : Nat := 0
  isAtStart : Bool := false
  tag : Option Bytes := none
deriving DecidableEq

/-- `_APEv2Data.__init__` (locate, `__fill_missing`, `__fix_brokenness`, read
the tag bytes).  `none` models an exception escaping `__init__`: a
`struct.error` when fewer than 4 bytes remain for a field read, or an
`IOError` from a seek to the negative offset that arises when the declared
size runs past the front of the file. -/
def apev2Data (file : Bytes) : Option APEData :=
  let fr := find_metadata file
  if fr.header = none ∧ fr.footer = none then
    some { isAtStart := fr.isAtStart }
  else
    let m := max (fr.header.getD 0) (fr.footer.getD 0)
    match uint_le (slice file (m + 12) 4), uint_le (slice file (m + 16) 4),
          uint_le (slice file (m + 20) 4) with
    | some size, some items, some flags =>
      match fr.header with
      | some h =>
        some { start := some (fixBrokenness file h), header := some h,
               data := some (h + 32),
               footer := if slice file (h + 32 + size - 32) 8 = APETAGEX
                         then some (h + 32 + size - 32) else fr.footer,
               endPos := some (h + 32 + size), version := slice file (m + 8) 4,
               size := some size, items := items, flags := flags,
               isAtStart := fr.isAtStart,
               tag := some (slice file (h + 32) size) }
      | none =>
        match fr.footer with
        | some f0 =>
          if f0 + 32 < size then none
          else if flags &&& HAS_HEADER ≠ 0 then
            if f0 + 32 - size < 32 then none
            else
              some { start := some (fixBrokenness file (f0 + 32 - size - 32)),
                     header := some (f0 + 32 - size - 32),
                     data := some (f0 + 32 - size), footer := fr.footer,
                     endPos := some (f0 + 32), version := slice file (m + 8) 4,
                     size := some size, items := items, flags := flags,
                     isAtStart := fr.isAtStart,
                     tag := some (slice file (f0 + 32 - size) size) }
          else
            some { start := some (fixBrokenness file (f0 + 32 - size)),
                   header := some (f0 + 32 - size),
                   data := some (f0 + 32 - size), footer := fr.footer,
                   endPos := some (f0 + 32), version := slice file (m + 8) 4,
                   size := some size, items := items, flags := flags,
                   isAtStart := fr.isAtStart,
                   tag := some (slice file (f0 + 32 - size) size) }
        | none => none
    | _, _, _ => none

/-- An 8-byte magic cookie starting at (possibly negative) position `p`. -/
def cookieAt (file : Bytes) (p : Int) : Bool :=
  decide (0 ≤ p) && decide (slice file p.toNat 8 = APETAGEX)

/-- The locator order as the specification states it, with the two
refinements the seek semantics force: a file shorter than 32 bytes fails
immediately (no start-of-file check), and the legacy-trailer sub-checks are
abandoned entirely (falling to the start-of-file check) when the file is
shorter than 160 bytes. -/
def specFind (file : Bytes) : FindResult :=
  let L : Int := file.length
  if L < 32 then ⟨none, none, false⟩
  else if cookieAt file (L - 32) then ⟨some (L - 32).toNat, none, false⟩
  else if 128 ≤ L ∧ slice file (L - 128).toNat 3 = ID3TAG then
    if L < 160 then findStep3 file
    else if cookieAt file (L - 160) then ⟨some (L - 160).toNat, none, false⟩
    else if slice file (L - 137).toNat 9 = LYRICS200 then
      match parseIntBytes (slice file (L - 143).toNat 6) with
      | some off =>
        if cookieAt file (L - 175 - off) then
          ⟨some (L - 175 - off).toNat, none, false⟩
        else findStep3 file
      | none => findStep3 file
    else findStep3 file
  else findStep3 file

/-! ## Tag model (`mutagen/apev2.py`: `APEv2`, `_APEValue`)

Keys are kept as byte strings.  `APEv2` keeps two Python dicts: `__casemap`
(lowercased key to the casing it was last set with) and `__dict` (lowercased
key to value); both are modelled as association lists with Python-dict
update semantics (an update keeps the entry at its position). -/

/-- ASCII lowercasing of one byte (`str.lower` on the ASCII keys that pass
the validity check). -/
def lowerByte (b : Nat) : Nat := if 65 ≤ b ∧ b ≤ 90 then b + 32 else b

def lowerB (k : Bytes) : Bytes := k.map lowerByte

/-- `[b"OggS", b"TAG", b"ID3", b"MP+"]`. -/
def apeKeyBlacklist : List Bytes :=
  [[79, 103, 103, 83], [84, 65, 71], [73, 68, 51], [77, 80, 43]]

/-- `is_valid_apev2_key`: length 2 to 255, every byte printable ASCII
(`0x20` to `0x7E`), and not one of the reserved markers. -/
def is_valid_apev2_key (k : Bytes) : Bool :=
  decide (2 ≤ k.length) && decide (k.length ≤ 255) &&
    k.all (fun b => decide (32 ≤ b) && decide (b ≤ 126)) &&
    !(decide (k ∈ apeKeyBlacklist))

/-- An APEv2 value: `kind` is 0 text, 1 binary, 2 external; `value` the raw
payload bytes. -/
structure APEValueM where
  kind : Nat
  value : Bytes
deriving DecidableEq

structure APEv2M where
  casemap : List (Bytes × Bytes)
  dict : List (Bytes × APEValueM)
deriving DecidableEq

/-- Python dict `d[k] = v`: replace in place if the key exists, else append. -/
def setAssoc {α : Type} : List (Bytes × α) → Bytes → α → List (Bytes × α)
  | [], k, v => [(k, v)]
  | (k1, v1) :: t, k, v =>
    if k1 = k then (k, v) :: t else (k1, v1) :: setAssoc t k v

/-- Python dict `d[k]` (as an option). -/
def getAssoc {α : Type} : List (Bytes × α) → Bytes → Option α
  | [], _ => none
  | (k1, v1) :: t, k => if k1 = k then some v1 else getAssoc t k

/-- Python dict `del d[k]` (caller checks presence). -/
def delAssoc {α : Type} : List (Bytes × α) → Bytes → List (Bytes × α)
  | [], _ => []
  | (k1, v1) :: t, k => if k1 = k then t else (k1, v1) :: delAssoc t k

/-- `APEv2.__setitem__` with an already-typed `_APEValue` (the text/binary
guessing for untyped arguments happens before this point and always yields
such a value).  `none` models the `KeyError` on an invalid key. -/
def apeSet (t : APEv2M) (key : Bytes) (v : APEValueM) : Option APEv2M :=
  if is_valid_apev2_key key then
    some ⟨setAssoc t.casemap (lowerB key) key, setAssoc t.dict (lowerB key) v⟩
  else none

/-- `APEv2.__delitem__`: validity check, then `del self.__dict[key.lower()]`
(`KeyError` when absent); the casemap entry is left behind. -/
def apeDel (t : APEv2M) (key : Bytes) : Option APEv2M :=
  if is_valid_apev2_key key then
    if (getAssoc t.dict (lowerB key)).isSome then
      some ⟨t.casemap, delAssoc t.dict (lowerB key)⟩
    else none
  else none

/-- `APEv2.keys`: the stored casing of each lowercased key, falling back to
the lowercased key itself. -/
def apeKeys (t : APEv2M) : List Bytes :=
  t.dict.map (fun e => (getAssoc t.casemap e.1).getD e.1)

/-- The key-reading loop of `APEv2.__parse_tag`: single bytes up to and
including a NUL (which is stripped), or up to end-of-data. -/
def readNulKey : Bytes → Bytes × Bytes
  | [] => ([], [])
  | b :: r =>
    if b = 0 then ([], r)
    else ((b :: (readNulKey r).1), (readNulKey r).2)

/-- `APEv2.__parse_tag`: `count` items, each a 4-byte little-endian size, a
4-byte little-endian flags word whose bits 1 and 2 select the kind (3 raises
`APEBadItemError`), a NUL-terminated key and `size` payload bytes, stored
through `__setitem__`.  `none` models the exceptions: short field reads
(`struct.error`), kind 3, and invalid keys (which `__setitem__` rejects; a
key that is not valid UTF-8 would already fail to decode). -/
def parseItems : Nat → Bytes → APEv2M → Option APEv2M
  | 0, _, t => some t
  | n + 1, bs, t =>
    match uint_le (slice bs 0 4), uint_le (slice bs 4 4) with
    | some sz, some flags =>
      if (flags &&& 6) >>> 1 = 3 then none
      else
        match apeSet t (readNulKey (bs.drop 8)).1
            ⟨(flags &&& 6) >>> 1, (readNulKey (bs.drop 8)).2.take sz⟩ with
        | some t2 => parseItems n ((readNulKey (bs.drop 8)).2.drop sz) t2
        | none => none
    | _, _ => none

/-- The invariant of the mapping: at most one stored entry per case-folded
key. -/
def DistinctKeys (t : APEv2M) : Prop := (t.dict.map Prod.fst).Nodup

/-! ## Serialization (`APEv2.save`, `_APEValue._internal`) -/

/-- `_APEValue._internal(key)`: `struct.pack("<2I", len(value), kind << 1)`
followed by the key, a NUL, and the payload; `none` models the
`struct.error` on an overlong payload. -/
def internalBytes (key : Bytes) (v : APEValueM) : Option Bytes :=
  match uint32le v.value.length, uint32le (v.kind <<< 1) with
  | some a, some b => some (a ++ b ++ key ++ [0] ++ v.value)
  | _, _ => none

/-- The same serialized item with the length fields unguarded (used to state
parse inversion; equal to `internalBytes` on in-range inputs). -/
def internalPure (key : Bytes) (v : APEValueM) : Bytes :=
  uint32pure v.value.length ++ uint32pure (v.kind <<< 1) ++ key ++ [0] ++ v.value

/-- Insert into a list sorted ascending by length, before the first
strictly longer element (a stable sort's insertion step; Python `sorted`
with `key=len` is stable, so any stable model computes the same list). -/
def insLenSorted (x : Bytes) : List Bytes → List Bytes
  | [] => [x]
  | y :: t => if x.length ≤ y.length then x :: y :: t else y :: insLenSorted x t

/-- `sorted(items, key=len)`. -/
def sortByLen (l : List Bytes) : List Bytes := l.foldr insLenSorted []

def joinBytes (l : List Bytes) : Bytes := l.foldr (fun a bs => a ++ bs) []

/-- `struct.pack("<8s 4I 8x", b"APETAGEX", 2000, len(tags) + 32, num_tags,
flags)` with `HAS_HEADER | IS_HEADER` for the header and `HAS_HEADER` for
the footer; `none` models `struct.error` on out-of-range size or count. -/
def headerFooterBytes (tagsLen num : Nat) (isHeader : Bool) : Option Bytes :=
  match uint32le (tagsLen + 32), uint32le num with
  | some sz, some cnt =>
    some (APETAGEX ++ uint32pure 2000 ++ sz ++ cnt ++
      uint32pure (if isHeader then HAS_HEADER ||| IS_HEADER else HAS_HEADER) ++
      List.replicate 8 0)
  | _, _ => none

/-- One `items()` entry serialized: `__getitem__` on the displayed key
(validity check, then the lowercased lookup; `none` models its `KeyError`)
followed by `_internal`. -/
def buildOneItem (t : APEv2M) (k : Bytes) : Option Bytes :=
  if is_valid_apev2_key k then
    match getAssoc t.dict (lowerB k) with
    | some v => internalBytes k v
    | none => none
  else none

def buildItemsLoop (t : APEv2M) : List Bytes → Option (List Bytes)
  | [] => some []
  | k :: ks =>
    match buildOneItem t k, buildItemsLoop t ks with
    | some b, some bs => some (b :: bs)
    | _, _ => none

/-- The item serialization of `APEv2.save`: one `_internal` blob per entry of
`items()` (each key in its stored casing, looked up through
`__getitem__`). -/
def buildTagItems (t : APEv2M) : Option (List Bytes) :=
  buildItemsLoop t (apeKeys t)

/-- The full byte block `APEv2.save` writes: header, sorted items, footer. -/
def renderTag (t : APEv2M) : Option Bytes :=
  match buildTagItems t with
  | some items =>
    match headerFooterBytes (joinBytes (sortByLen items)).length items.length true,
          headerFooterBytes (joinBytes (sortByLen items)).length items.length false with
    | some hd, some ft => some (hd ++ joinBytes (sortByLen items) ++ ft)
    | _, _ => none
  | none => none

/-- `APEv2.load` composed with `_APEv2Data`: locate the tag, then parse
`items` entries from the tag bytes into a cleared mapping; `none` models
`APENoHeaderError` (no tag or empty tag bytes) and parse errors. -/
def apev2Load (file : Bytes) : Option APEv2M :=
  match apev2Data file with
  | some d =>
    match d.tag with
    | some tg => if tg = [] then none else parseItems d.items tg ⟨[], []⟩
    | none => none
  | none => none

/-- `APEv2.save`: locate any existing tag; if it is at the start, splice it
out with `delete_bytes`, otherwise truncate at its start (which also drops a
subsumed trailing ID3v1 tag); then append header, items and footer at
end-of-file. -/
def apev2Save (file : Bytes) (t : APEv2M) (bufSize : Nat) : Option Bytes :=
  match apev2Data file, renderTag t with
  | some d, some rt =>
    if d.isAtStart then
      match d.start, d.endPos with
      | some st, some e =>
        if (delete_bytes file (e - st) st bufSize).ok then
          some ((delete_bytes file (e - st) st bufSize).file ++ rt)
        else none
      | _, _ => none
    else
      match d.start with
      | some st => some (pyTruncate file st ++ rt)
      | none => some (file ++ rt)
  | _, _ => none

/-- `APEv2.delete`: locate; when both `start` and `size` were found, splice
out `[start, end)` with `delete_bytes`; otherwise leave the file alone. -/
def apev2Delete (file : Bytes) : Option Bytes :=
  match apev2Data file with
  | some d =>
    match d.start, d.size with
    | some st, some _ =>
      match d.endPos with
      | some e =>
        if (delete_bytes file (e - st) st 65536).ok then
          some ((delete_bytes file (e - st) st 65536).file)
        else none
      | none => none
    | _, _ => some file
  | none => none

/-- Wellformedness of a tag model reachable through `__setitem__`: folded
keys distinct, each entry's casemap casing present, consistent and valid,
kinds in range. -/
def wfEntry (t : APEv2M) (e : Bytes × APEValueM) : Bool :=
  match getAssoc t.casemap e.1 with
  | some ck =>
    decide (lowerB ck = e.1) && is_valid_apev2_key ck && decide (e.2.kind ≤ 2)
  | none => false

def WFModel (t : APEv2M) : Bool :=
  decide (t.dict.map Prod.fst).Nodup && t.dict.all (wfEntry t)

/-- Equality of tag models as the round-trip claim states it: the same
case-folded keys with the same kind and payload bytes, and the same stored
casing for every live key (the casemap may keep stale entries for deleted
keys, which no API reports). -/
def ModelEquiv (a b : APEv2M) : Prop :=
  (∀ k, getAssoc a.dict k = getAssoc b.dict k) ∧
  (∀ k, (getAssoc b.dict k).isSome = true → getAssoc a.casemap k = getAssoc b.casemap k)

/-- The header/footer block with the length fields unguarded (what
`headerFooterBytes` produces on in-range inputs). -/
def headerPure (tagsLen num : Nat) (isHeader : Bool) : Bytes :=
  APETAGEX ++ uint32pure 2000 ++ uint32pure (tagsLen + 32) ++ uint32pure num ++
    uint32pure (if isHeader then HAS_HEADER ||| IS_HEADER else HAS_HEADER) ++
    List.replicate 8 0

/-- The (stored casing, value) pairs of `items()`, in dict order. -/
def pairList (t : APEv2M) : List (Bytes × APEValueM) :=
  t.dict.map (fun e => ((getAssoc t.casemap e.1).getD e.1, e.2))

/-- The successful body of `__setitem__` (what `apeSet` does on a valid
key). -/
def setPair (t : APEv2M) (p : Bytes × APEValueM) : APEv2M :=
  ⟨setAssoc t.casemap (lowerB p.1) p.1, setAssoc t.dict (lowerB p.1) p.2⟩

/-- Stable insertion of a pair by serialized length (the pair-level view of
`insLenSorted`). -/
def insLenSortedP (x : Bytes × APEValueM) :
    List (Bytes × APEValueM) → List (Bytes × APEValueM)
  | [] => [x]
  | y :: t =>
    if (internalPure x.1 x.2).length ≤ (internalPure y.1 y.2).length then x :: y :: t
    else y :: insLenSortedP x t

def sortPairsByLen (l : List (Bytes × APEValueM)) : List (Bytes × APEValueM) :=
  l.foldr insLenSortedP []

/-- `n` consecutive copies of a byte block. -/
def repChunk (c : Bytes) : Nat → Bytes
  | 0 => []
  | n + 1 => c ++ repChunk c n

/-! ## Lemmas and theorems -/

theorem fileWrite_in_range (f bs : Bytes) (p : Nat) (h : p ≤ f.length) :
    fileWrite f p bs = f.take p ++ bs ++ f.drop (p + bs.length) := by
  by_cases hbs : bs = []
  · simp [fileWrite, hbs]
  · simp [fileWrite, hbs, Nat.sub_eq_zero_of_le h]

theorem insert_mmap_eq (F : Bytes) (s o : Nat) (h : o ≤ F.length) :
    insert_mmap F s o = (F ++ List.replicate s 0).take (o + s) ++ F.drop o := by
  have hd : slice (F ++ List.replicate s 0) o (F.length - o) = F.drop o := by
    have h1 : (F.drop o).take (F.length - o) = F.drop o :=
      List.take_of_length_le (by simp)
    rw [slice, List.drop_append_of_le_length h,
      List.take_append_of_le_length (by simp), h1]
  rw [insert_mmap, memmove, hd,
    fileWrite_in_range _ _ _ (by simp; omega)]
  have h2 : (F ++ List.replicate s 0).drop (o + s + (F.drop o).length) = [] := by
    apply List.drop_eq_nil_of_le
    simp
    omega
  rw [h2, List.append_nil]

theorem insPadLoop_eq (b : Nat) (hb : 0 < b) :
    ∀ n f, insPadLoop f n b = f ++ List.replicate n 0 := by
  intro n
  induction n using Nat.strong_induction_on with
  | _ n ih =>
    intro f
    rw [insPadLoop]
    by_cases h0 : n = 0
    · simp [h0]
    · have ha : ¬ (min b n = 0) := by omega
      rw [if_neg h0, if_neg ha, ih _ (by omega),
        fileWrite_in_range _ _ _ le_rfl]
      rw [List.take_length, List.drop_eq_nil_of_le (by simp), List.append_nil,
        List.append_assoc, ← List.replicate_add]
      congr 2
      omega

theorem insMoveLoop_inv (F : Bytes) (s b : Nat) (hb : 0 < b) (o : Nat) :
    ∀ m f p, p = o + m → p ≤ F.length →
    f = (F ++ List.replicate s 0).take (p + s) ++ F.drop p →
    insMoveLoop f s b m p = (F ++ List.replicate s 0).take (o + s) ++ F.drop o := by
  intro m
  induction m using Nat.strong_induction_on with
  | _ m ih =>
    intro f p hp hpL hf
    rw [insMoveLoop]
    by_cases h0 : m = 0
    · rw [if_pos h0, hf, hp, h0, Nat.add_zero]
    · have ht0 : ¬ (min b m = 0) := by omega
      rw [if_neg h0, if_neg ht0]
      have ht1 : 1 ≤ min b m := by omega
      have htm : min b m ≤ m := by omega
      have htp : min b m ≤ p := by omega
      have hPlen : (F ++ List.replicate s 0).length = F.length + s := by simp
      have hleft : ((F ++ List.replicate s 0).take (p + s)).length = p + s := by
        simp; omega
      -- the block read in this iteration
      have hslice : slice f (p - min b m) (min b m) =
          (F.drop (p - min b m)).take (min b m) := by
        rw [slice, hf, List.drop_append_of_le_length (by omega),
          List.drop_take]
        have h1 : p + s - (p - min b m) = min b m + s := by omega
        rw [h1, List.take_append_of_le_length (by simp; omega),
          List.take_take, List.drop_append_of_le_length (by omega),
          List.take_append_of_le_length (by simp; omega)]
        congr 1
        omega
      have hdlen : ((F.drop (p - min b m)).take (min b m)).length = min b m := by
        simp; omega
      have hflen : f.length = F.length + s := by
        rw [hf]
        simp
        omega
      -- the state after the write satisfies the invariant one block earlier
      have hstep : fileWrite f (p - min b m + s) (slice f (p - min b m) (min b m)) =
          (F ++ List.replicate s 0).take (p - min b m + s) ++ F.drop (p - min b m) := by
        rw [hslice, fileWrite_in_range _ _ _ (by omega), hdlen]
        have h2 : p - min b m + s + min b m = p + s := by omega
        rw [h2]
        have h3 : f.drop (p + s) = F.drop p := by
          rw [hf, List.drop_append_of_le_length (by omega),
            List.drop_eq_nil_of_le (by omega), List.nil_append]
        have h4 : f.take (p - min b m + s) =
            (F ++ List.replicate s 0).take (p - min b m + s) := by
          rw [hf, List.take_append_of_le_length (by omega), List.take_take,
            Nat.min_eq_left (by omega)]
        rw [h3, h4, List.append_assoc]
        congr 1
        have h5 : F.drop p = (F.drop (p - min b m)).drop (min b m) := by
          rw [List.drop_drop]
          congr 1
          omega
        rw [h5, List.take_append_drop]
      rw [hstep]
      exact ih (m - min b m) (by omega) _ (p - min b m) (by omega) (by omega) rfl

theorem insert_fallback_eq (F : Bytes) (s o b : Nat) (hb : 0 < b) (h : o ≤ F.length) :
    insert_fallback F s o b = insert_mmap F s o := by
  rw [insert_mmap_eq F s o h, insert_fallback, insPadLoop_eq b hb s F]
  exact insMoveLoop_inv F s b hb o (F.length - o) _ F.length (by omega) le_rfl
    (by rw [List.take_of_length_le (by simp), List.drop_length, List.append_nil])

theorem delete_mmap_eq (F : Bytes) (s o : Nat) (h : o + s ≤ F.length) :
    delete_mmap F s o = F.take o ++ F.drop (o + s) := by
  rw [delete_mmap]
  by_cases hm : 0 < F.length - o - s
  · rw [if_pos hm, memmove]
    have hs1 : slice F (o + s) (F.length - o - s) = F.drop (o + s) := by
      rw [slice, List.take_of_length_le (by simp; omega)]
    rw [hs1, fileWrite_in_range _ _ _ (by omega)]
    have h2 : (F.take o ++ F.drop (o + s)).length = F.length - s := by
      simp
      omega
    rw [List.append_assoc, ← List.append_assoc (F.take o),
      List.take_left' h2]
  · rw [if_neg hm]
    have ho : o = F.length - s := by omega
    rw [ho, List.drop_eq_nil_of_le (by omega), List.append_nil]

theorem delMoveLoop_inv (F : Bytes) (s o b : Nat) (hb : 0 < b) (hos : o + s ≤ F.length) :
    ∀ k c f, F.length - c ≤ k → o ≤ c → c + s ≤ F.length →
    f = F.take o ++ ((F.drop (o + s)).take (c - o) ++ F.drop c) →
    delMoveLoop f s b c = F.take o ++ (F.drop (o + s) ++ F.drop (F.length - s)) := by
  intro k
  induction k using Nat.strong_induction_on with
  | _ k ih =>
    intro c f hk hoc hcs hf
    have hA : (F.take o ++ (F.drop (o + s)).take (c - o)).length = c := by
      simp
      omega
    have hfc : f.drop c = F.drop c := by
      rw [hf, ← List.append_assoc, List.drop_left' hA]
    have hdrop : f.drop (c + s) = F.drop (c + s) := by
      have : f.drop (c + s) = (f.drop c).drop s := by rw [List.drop_drop, Nat.add_comm]
      rw [this, hfc, List.drop_drop, Nat.add_comm]
    rw [delMoveLoop]
    have hslice : slice f (c + s) b = (F.drop (c + s)).take b := by
      rw [slice, hdrop]
    by_cases hend : F.length ≤ c + s
    · have hempty : slice f (c + s) b = [] := by
        rw [hslice, List.drop_eq_nil_of_le hend, List.take_nil]
      rw [dif_pos hempty, hf]
      have hc : c = F.length - s := by omega
      have hfull : (F.drop (o + s)).take (c - o) = F.drop (o + s) :=
        List.take_of_length_le (by simp; omega)
      rw [hfull, hc]
    · have hne : ¬ (slice f (c + s) b = []) := by
        rw [hslice]
        simp
        omega
      rw [dif_neg hne]
      have hblen : (slice f (c + s) b).length = min b (F.length - (c + s)) := by
        rw [hslice]
        simp
      have hb1 : 1 ≤ (slice f (c + s) b).length := by
        rw [hblen]
        omega
      have hbmax : (slice f (c + s) b).length ≤ F.length - (c + s) := by
        rw [hblen]
        omega
      have hflen : f.length = F.length := by
        rw [hf]
        simp
        omega
      have h1 : f.take c = F.take o ++ (F.drop (o + s)).take (c - o) := by
        rw [hf, ← List.append_assoc, List.take_left' hA]
      have h2 : f.drop (c + (slice f (c + s) b).length) =
          F.drop (c + (slice f (c + s) b).length) := by
        have e1 : f.drop (c + (slice f (c + s) b).length) =
            (f.drop c).drop (slice f (c + s) b).length := by
          rw [List.drop_drop, Nat.add_comm]
        rw [e1, hfc, List.drop_drop, Nat.add_comm]
      have e2 : F.drop (c + s) = (F.drop (o + s)).drop (c - o) := by
        rw [List.drop_drop]
        congr 1
        omega
      have hcomb : (F.drop (o + s)).take (c - o) ++ slice f (c + s) b =
          (F.drop (o + s)).take (c + (slice f (c + s) b).length - o) := by
        rw [hslice, e2, ← List.take_add, List.take_eq_take]
        simp
        omega
      have hstep : fileWrite f c (slice f (c + s) b) =
          F.take o ++ ((F.drop (o + s)).take
            (c + (slice f (c + s) b).length - o) ++
            F.drop (c + (slice f (c + s) b).length)) := by
        rw [fileWrite_in_range _ _ _ (by omega), h1, h2, ← hcomb]
        simp only [List.append_assoc]
      rw [hstep]
      exact ih (k - (slice f (c + s) b).length) (by omega)
        (c + (slice f (c + s) b).length) _ (by omega) (by omega) (by omega) rfl

theorem delete_fallback_eq (F : Bytes) (s o b : Nat) (hb : 0 < b) (h : o + s ≤ F.length) :
    delete_fallback F s o b = delete_mmap F s o := by
  rw [delete_fallback]
  by_cases hm : 0 < F.length - o - s
  · rw [if_pos hm]
    have hloop := delMoveLoop_inv F s o b hb h F.length o F (by omega) le_rfl (by omega)
      (by rw [Nat.sub_self, List.take_zero, List.nil_append, List.take_append_drop])
    rw [hloop, delete_mmap_eq F s o h, ← List.append_assoc]
    have hlen : (F.take o ++ F.drop (o + s)).length = F.length - s := by
      simp
      omega
    rw [List.take_left' hlen]
  · rw [if_neg hm, delete_mmap, if_neg hm]

theorem insert_bytes_file_eq (F : Bytes) (s o b : Nat) (hs : 0 < s) (ho : o ≤ F.length) :
    insert_bytes F s o b =
      ⟨true, (F ++ List.replicate s 0).take (o + s) ++ F.drop o⟩ := by
  rw [insert_bytes, if_neg (by omega), if_pos ho, insert_mmap_eq F s o ho]

theorem delete_bytes_file_eq (F : Bytes) (s o b : Nat) (hs : 0 < s) (ho : o + s ≤ F.length) :
    delete_bytes F s o b = ⟨true, F.take o ++ F.drop (o + s)⟩ := by
  rw [delete_bytes, if_neg (by omega), delete_mmap_eq F s o ho]

/-- C1: for every file `F`, size `s > 0` and offset `o` within the file
length, `delete_bytes` after `insert_bytes` with the same `s` and `o`
restores `F` byte for byte, and each operation alone leaves every byte
strictly outside `[o, o + s)` (in the pre-insert / post-delete coordinate
frame) unchanged. -/
theorem insert_delete_roundtrip (F : Bytes) (s o b : Nat)
    (hs : 0 < s) (ho : o ≤ F.length) :
    (insert_bytes F s o b).ok = true ∧
    (delete_bytes (insert_bytes F s o b).file s o b).ok = true ∧
    (delete_bytes (insert_bytes F s o b).file s o b).file = F ∧
    (insert_bytes F s o b).file.take o = F.take o ∧
    (insert_bytes F s o b).file.drop (o + s) = F.drop o ∧
    (o + s ≤ F.length →
      (delete_bytes F s o b).ok = true ∧
      (delete_bytes F s o b).file.take o = F.take o ∧
      (delete_bytes F s o b).file.drop o = F.drop (o + s)) := by
  rw [insert_bytes_file_eq F s o b hs ho]
  have hleft : ((F ++ List.replicate s 0).take (o + s)).length = o + s := by
    simp
    omega
  have hIlen : ((F ++ List.replicate s 0).take (o + s) ++ F.drop o).length
      = F.length + s := by
    simp
    omega
  have hIdel := delete_bytes_file_eq
    ((F ++ List.replicate s 0).take (o + s) ++ F.drop o) s o b hs (by omega)
  have htake : ((F ++ List.replicate s 0).take (o + s) ++ F.drop o).take o
      = F.take o := by
    rw [List.take_append_of_le_length (by omega), List.take_take,
      Nat.min_eq_left (by omega), List.take_append_of_le_length ho]
  have hdrop : ((F ++ List.replicate s 0).take (o + s) ++ F.drop o).drop (o + s)
      = F.drop o := List.drop_left' hleft
  refine ⟨rfl, ?_, ?_, htake, hdrop, ?_⟩
  · rw [hIdel]
  · rw [hIdel]
    show _ ++ _ = F
    rw [htake, hdrop, List.take_append_drop]
  · intro hos
    rw [delete_bytes_file_eq F s o b hs hos]
    have h1 : (F.take o ++ F.drop (o + s)).take o = F.take o := by
      rw [List.take_append_of_le_length (by simp; omega), List.take_take,
        Nat.min_self]
    have h2 : (F.take o ++ F.drop (o + s)).drop o = F.drop (o + s) :=
      List.drop_left' (by simp; omega)
    exact ⟨rfl, h1, h2⟩

theorem insert_delete_roundtrip_witness :
    0 < 2 ∧ 1 ≤ ([10, 20, 30] : Bytes).length ∧
    (delete_bytes (insert_bytes [10, 20, 30] 2 1 4).file 2 1 4).file
      = [10, 20, 30] :=
  ⟨by decide, by decide,
    (insert_delete_roundtrip [10, 20, 30] 2 1 4 (by decide) (by decide)).2.2.1⟩

/-- C2: on every input accepted by `insert_bytes` (resp. `delete_bytes`) on
which the `mmap` block-move path is defined, the bounded-memory streaming
fallback produces exactly the same final file contents. -/
theorem splice_strategy_equivalence (F : Bytes) (s o b : Nat)
    (hs : 0 < s) (hb : 0 < b) :
    (o ≤ F.length → insert_fallback F s o b = insert_mmap F s o) ∧
    (o + s ≤ F.length → delete_fallback F s o b = delete_mmap F s o) :=
  ⟨fun ho => insert_fallback_eq F s o b hb ho,
   fun ho => delete_fallback_eq F s o b hb ho⟩

theorem splice_strategy_equivalence_witness :
    0 < 2 ∧ 0 < 3 ∧
    insert_fallback [5, 6, 7, 8] 2 1 3 = insert_mmap [5, 6, 7, 8] 2 1 ∧
    delete_fallback [5, 6, 7, 8] 2 1 3 = delete_mmap [5, 6, 7, 8] 2 1 :=
  ⟨by decide, by decide,
    (splice_strategy_equivalence [5, 6, 7, 8] 2 1 3 (by decide) (by decide)).1
      (by decide),
    (splice_strategy_equivalence [5, 6, 7, 8] 2 1 3 (by decide) (by decide)).2
      (by decide)⟩

/-- C5 counterexample: `insert_bytes` does not fail when the offset exceeds
the current file length — at file `[7]` (length 1), size 1 and offset 5 the
asserts pass (`ok = true`) and the file is rewritten, refuting the claim
that every such call fails with an invalid-argument error. -/
theorem insert_no_offset_check_counterexample :
    ([7] : Bytes).length < 5 ∧ insert_bytes [7] 1 5 4 = ⟨true, [7, 0]⟩ := by
  constructor
  · decide
  · decide

/-- C5 (amended): `insert_bytes` fails with an argument-check error exactly
when `size = 0` (a nonnegative offset past end-of-file is not rejected),
`delete_bytes` fails exactly when `size = 0` or the range `[offset,
offset + size)` extends past the file length, and in every failing case the
file is left unchanged. -/
theorem splice_argument_checks (F : Bytes) (s o b : Nat) :
    ((insert_bytes F s o b).ok = false ↔ s = 0) ∧
    ((insert_bytes F s o b).ok = false → (insert_bytes F s o b).file = F) ∧
    ((delete_bytes F s o b).ok = false ↔ (s = 0 ∨ F.length < o + s)) ∧
    ((delete_bytes F s o b).ok = false → (delete_bytes F s o b).file = F) := by
  unfold insert_bytes delete_bytes
  refine ⟨?_, ?_, ?_, ?_⟩
  · split
    · simp_all
    · split <;> simp_all
  · split
    · simp_all
    · split <;> simp_all
  · split <;> simp_all
  · split <;> simp_all

theorem splice_argument_checks_witness :
    (insert_bytes [7] 0 0 4).ok = false ∧ (insert_bytes [7] 0 0 4).file = [7] ∧
    (delete_bytes [7] 1 1 4).ok = false ∧ (delete_bytes [7] 1 1 4).file = [7] :=
  ⟨(splice_argument_checks [7] 0 0 4).1.mpr rfl,
   (splice_argument_checks [7] 0 0 4).2.1
     ((splice_argument_checks [7] 0 0 4).1.mpr rfl),
   (splice_argument_checks [7] 1 1 4).2.2.1.mpr (Or.inr (by decide)),
   (splice_argument_checks [7] 1 1 4).2.2.2
     ((splice_argument_checks [7] 1 1 4).2.2.1.mpr (Or.inr (by decide)))⟩

/-- C4 counterexample: on the 8-byte file consisting of exactly the magic
cookie, the cookie sits at offset 0 and the earlier probes have nothing to
find, yet the locator reports no tag at all (the failed seek to 32 bytes
before end-of-file returns immediately), contradicting the claimed order in
which step (3) would mark a tag at the start. -/
theorem locator_short_file_counterexample :
    slice APETAGEX 0 8 = APETAGEX ∧ APETAGEX.length < 32 ∧
    find_metadata APETAGEX = ⟨none, none, false⟩ :=
  ⟨by decide, by decide, by decide⟩

/-- C4 (amended): the locator examines the candidate positions in exactly
the claimed order and stops at the first success, with two refinements the
seek semantics force: a file shorter than 32 bytes fails immediately with no
tag found (the start-of-file check is skipped), and the legacy-trailer
sub-checks are abandoned entirely when the file is shorter than 160 bytes. -/
theorem find_metadata_spec_order (file : Bytes) :
    find_metadata file = specFind file := by
  have e32 : ((file.length : Int) - 32).toNat = file.length - 32 := by omega
  have e128 : ((file.length : Int) - 128).toNat = file.length - 128 := by omega
  have e137 : ((file.length : Int) - 137).toNat = file.length - 137 := by omega
  have e143 : ((file.length : Int) - 143).toNat = file.length - 143 := by omega
  have e160 : ((file.length : Int) - 160).toNat = file.length - 160 := by omega
  simp only [specFind, find_metadata, cookieAt, Bool.and_eq_true, decide_eq_true_eq,
    e32, e128, e137, e143, e160]
  by_cases h1 : file.length < 32
  · rw [if_pos h1, if_pos (show (file.length : Int) < 32 by omega)]
  · rw [if_neg h1, if_neg (show ¬ ((file.length : Int) < 32) by omega)]
    by_cases h2 : slice file (file.length - 32) 8 = APETAGEX
    · rw [if_pos h2, if_pos (show 0 ≤ (file.length : Int) - 32 ∧
        slice file (file.length - 32) 8 = APETAGEX from ⟨by omega, h2⟩)]
    · rw [if_neg h2, if_neg (show ¬ (0 ≤ (file.length : Int) - 32 ∧
        slice file (file.length - 32) 8 = APETAGEX) from fun hc => h2 hc.2)]
      by_cases h3 : file.length < 128
      · rw [if_pos h3, if_neg (show ¬ (128 ≤ (file.length : Int) ∧
          slice file (file.length - 128) 3 = ID3TAG) from
          fun hc => absurd hc.1 (by omega))]
      · rw [if_neg h3]
        by_cases h4 : slice file (file.length - 128) 3 = ID3TAG
        · rw [if_pos h4, if_pos (show 128 ≤ (file.length : Int) ∧
            slice file (file.length - 128) 3 = ID3TAG from ⟨by omega, h4⟩)]
          by_cases h5 : file.length < 160
          · rw [if_pos h5, if_pos (show (file.length : Int) < 160 by omega)]
          · rw [if_neg h5, if_neg (show ¬ ((file.length : Int) < 160) by omega)]
            by_cases h6 : slice file (file.length - 160) 8 = APETAGEX
            · rw [if_pos h6, if_pos (show 0 ≤ (file.length : Int) - 160 ∧
                slice file (file.length - 160) 8 = APETAGEX from ⟨by omega, h6⟩)]
            · rw [if_neg h6, if_neg (show ¬ (0 ≤ (file.length : Int) - 160 ∧
                slice file (file.length - 160) 8 = APETAGEX) from fun hc => h6 hc.2)]
              by_cases h7 : slice file (file.length - 137) 9 = LYRICS200
              · rw [if_pos h7, if_pos h7]
                cases hoff : parseIntBytes (slice file (file.length - 143) 6) with
                | none => rfl
                | some off =>
                  dsimp only
                  by_cases h8 : (file.length : Int) - 175 - off < 0
                  · rw [if_pos h8, if_neg (show ¬ (0 ≤ (file.length : Int) - 175 - off ∧
                      slice file ((file.length : Int) - 175 - off).toNat 8 = APETAGEX)
                      from fun hc => absurd hc.1 (by omega))]
                  · rw [if_neg h8]
                    by_cases h9 :
                        slice file ((file.length : Int) - 175 - off).toNat 8 = APETAGEX
                    · rw [if_pos h9, if_pos (show 0 ≤ (file.length : Int) - 175 - off ∧
                        slice file ((file.length : Int) - 175 - off).toNat 8 = APETAGEX
                        from ⟨by omega, h9⟩)]
                    · rw [if_neg h9, if_neg (show ¬ (0 ≤ (file.length : Int) - 175 - off ∧
                        slice file ((file.length : Int) - 175 - off).toNat 8 = APETAGEX)
                        from fun hc => h9 hc.2)]
              · rw [if_neg h7, if_neg h7]
        · rw [if_neg h4, if_neg (show ¬ (128 ≤ (file.length : Int) ∧
            slice file (file.length - 128) 3 = ID3TAG) from fun hc => h4 hc.2)]

/-- C9: when the magic cookie is present both at offset 0 and at the footer
position 32 bytes before end-of-file, the locator resolves the tag via the
footer at the end: the header field stays unset and `is_at_start` stays
false, because the end-of-file check runs first and returns on success. -/
theorem tag_at_both_ends_resolved_via_footer (file : Bytes)
    (h32 : 32 ≤ file.length)
    (hstart : slice file 0 8 = APETAGEX)
    (hend : slice file (file.length - 32) 8 = APETAGEX) :
    find_metadata file = ⟨some (file.length - 32), none, false⟩ := by
  rw [find_metadata, if_neg (by omega), if_pos hend]

theorem tag_at_both_ends_witness :
    find_metadata (APETAGEX ++ List.replicate 24 0) = ⟨some 0, none, false⟩ :=
  tag_at_both_ends_resolved_via_footer (APETAGEX ++ List.replicate 24 0)
    (by decide) (by decide) (by decide)

theorem getAssoc_setAssoc {α : Type} (l : List (Bytes × α)) (k k2 : Bytes) (v : α) :
    getAssoc (setAssoc l k v) k2 = if k = k2 then some v else getAssoc l k2 := by
  induction l with
  | nil => simp [setAssoc, getAssoc]
  | cons e t ih =>
    obtain ⟨k1, v1⟩ := e
    by_cases h : k1 = k
    · subst h
      simp only [setAssoc, if_pos rfl, getAssoc]
      split_ifs <;> simp_all [getAssoc]
    · simp only [setAssoc, if_neg h, getAssoc]
      split_ifs <;> simp_all

theorem mem_keys_setAssoc {α : Type} (l : List (Bytes × α)) (k x : Bytes) (v : α) :
    x ∈ (setAssoc l k v).map Prod.fst ↔ x ∈ l.map Prod.fst ∨ x = k := by
  induction l with
  | nil => simp [setAssoc]
  | cons e t ih =>
    obtain ⟨k1, v1⟩ := e
    by_cases h : k1 = k
    · subst h
      simp [setAssoc]
      tauto
    · simp [setAssoc, if_neg h, ih]
      tauto

theorem nodup_keys_setAssoc {α : Type} (l : List (Bytes × α)) (k : Bytes) (v : α)
    (h : (l.map Prod.fst).Nodup) : ((setAssoc l k v).map Prod.fst).Nodup := by
  induction l with
  | nil => simp [setAssoc]
  | cons e t ih =>
    obtain ⟨k1, v1⟩ := e
    simp only [List.map_cons, List.nodup_cons] at h
    by_cases hk : k1 = k
    · subst hk
      simpa [setAssoc] using h
    · simp only [setAssoc, if_neg hk, List.map_cons, List.nodup_cons]
      exact ⟨fun hm => by
        rcases (mem_keys_setAssoc t k k1 v).mp hm with h1 | h1
        · exact h.1 h1
        · exact hk h1,
        ih h.2⟩

theorem countP_keys_zero {α : Type} (l : List (Bytes × α)) (k : Bytes)
    (h : k ∉ l.map Prod.fst) : l.countP (fun e => decide (e.1 = k)) = 0 := by
  induction l with
  | nil => rfl
  | cons e t ih =>
    simp only [List.map_cons, List.mem_cons] at h
    push_neg at h
    rw [List.countP_cons]
    simp only [decide_eq_true_eq]
    rw [ih h.2, if_neg (fun hh => h.1 hh.symm)]

theorem countP_setAssoc_self {α : Type} (l : List (Bytes × α)) (k : Bytes) (v : α)
    (h : (l.map Prod.fst).Nodup) :
    (setAssoc l k v).countP (fun e => decide (e.1 = k)) = 1 := by
  induction l with
  | nil => simp [setAssoc]
  | cons e t ih =>
    obtain ⟨k1, v1⟩ := e
    simp only [List.map_cons, List.nodup_cons] at h
    by_cases hk : k1 = k
    · subst hk
      rw [setAssoc, if_pos rfl, List.countP_cons]
      simp only [decide_eq_true_eq, if_pos rfl]
      rw [countP_keys_zero t k1 h.1]
      simp
    · rw [setAssoc, if_neg hk, List.countP_cons, ih h.2]
      simp [hk]

theorem delAssoc_sublist {α : Type} (l : List (Bytes × α)) (k : Bytes) :
    (delAssoc l k).Sublist l := by
  induction l with
  | nil => simp [delAssoc]
  | cons e t ih =>
    obtain ⟨k1, v1⟩ := e
    by_cases h : k1 = k
    · rw [delAssoc, if_pos h]
      exact (List.sublist_cons_self _ _)
    · rw [delAssoc, if_neg h]
      exact ih.cons₂ _

/-- C7: the mapping holds at most one entry per case-folded key; the
invariant is preserved by every set, delete and parse operation, and setting
the same folded key under three casings leaves exactly one stored entry
whose value and reported casing come from the last write. -/
theorem duplicate_key_collapse :
    (∀ t k v t2, DistinctKeys t → apeSet t k v = some t2 → DistinctKeys t2) ∧
    (∀ t k t2, DistinctKeys t → apeDel t k = some t2 → DistinctKeys t2) ∧
    (∀ n bs t t2, DistinctKeys t → parseItems n bs t = some t2 → DistinctKeys t2) ∧
    (∀ t k1 k2 k3 v1 v2 v3 t1 t2 t3, DistinctKeys t →
      lowerB k1 = lowerB k3 → lowerB k2 = lowerB k3 →
      apeSet t k1 v1 = some t1 → apeSet t1 k2 v2 = some t2 →
      apeSet t2 k3 v3 = some t3 →
      t3.dict.countP (fun e => decide (e.1 = lowerB k3)) = 1 ∧
      getAssoc t3.dict (lowerB k3) = some v3 ∧
      getAssoc t3.casemap (lowerB k3) = some k3) := by
  have hset : ∀ t k v t2, DistinctKeys t → apeSet t k v = some t2 → DistinctKeys t2 := by
    intro t k v t2 hd hs
    rw [apeSet] at hs
    split at hs
    · cases hs
      exact nodup_keys_setAssoc _ _ _ hd
    · cases hs
  refine ⟨hset, ?_, ?_, ?_⟩
  · intro t k t2 hd hs
    rw [apeDel] at hs
    split at hs
    · split at hs
      · cases hs
        exact hd.sublist ((delAssoc_sublist _ _).map _)
      · cases hs
    · cases hs
  · intro n
    induction n with
    | zero =>
      intro bs t t2 hd hs
      cases hs
      exact hd
    | succ n ih =>
      intro bs t t2 hd hs
      rw [parseItems] at hs
      split at hs
      · split at hs
        · cases hs
        · split at hs
          · exact ih _ _ _ (hset _ _ _ _ hd (by assumption)) hs
          · cases hs
      · cases hs
  · intro t k1 k2 k3 v1 v2 v3 t1 t2 t3 hd he1 he2 hs1 hs2 hs3
    have hd1 := hset _ _ _ _ hd hs1
    have hd2 := hset _ _ _ _ hd1 hs2
    rw [apeSet] at hs3
    split at hs3
    · cases hs3
      refine ⟨countP_setAssoc_self _ _ _ hd2, ?_, ?_⟩
      · rw [getAssoc_setAssoc, if_pos rfl]
      · rw [getAssoc_setAssoc, if_pos rfl]
    · cases hs3

theorem length_uint32pure (n : Nat) : (uint32pure n).length = 4 := by
  simp [uint32pure]

theorem uint_le_uint32pure (n : Nat) (h : n < 4294967296) :
    uint_le (uint32pure n) = some n := by
  rw [uint32pure, uint_le]
  congr 1
  omega

theorem length_headerPure (a b : Nat) (ih : Bool) :
    (headerPure a b ih).length = 32 := by
  simp [headerPure, uint32pure, APETAGEX]

theorem slice_append_right (G X : Bytes) (p n : Nat) (hp : G.length ≤ p) :
    slice (G ++ X) p n = slice X (p - G.length) n := by
  rw [slice, slice]
  congr 1
  have h1 : p = G.length + (p - G.length) := by omega
  rw [h1, ← List.drop_drop, List.drop_left]
  congr 1
  omega

theorem slice_append_left (G X : Bytes) (p n : Nat) (h : p + n ≤ G.length) :
    slice (G ++ X) p n = slice G p n := by
  rw [slice, slice, List.drop_append_of_le_length (by omega),
    List.take_append_of_le_length (by simp; omega)]

theorem slice_all (G X : Bytes) : slice (G ++ X) G.length X.length = X := by
  rw [slice_append_right _ _ _ _ le_rfl, Nat.sub_self, slice, List.drop_zero,
    List.take_of_length_le le_rfl]

theorem uint32le_some (n : Nat) (x : Bytes) (h : uint32le n = some x) :
    n < 4294967296 ∧ x = uint32pure n := by
  rw [uint32le] at h
  split at h
  · cases h
    exact ⟨by assumption, rfl⟩
  · cases h

theorem headerFooterBytes_eq (a b : Nat) (ih : Bool) (h1 : a + 32 < 4294967296)
    (h2 : b < 4294967296) :
    headerFooterBytes a b ih = some (headerPure a b ih) := by
  simp [headerFooterBytes, uint32le, h1, h2, headerPure]

theorem renderTag_decomp (t : APEv2M) (rt : Bytes) (h : renderTag t = some rt) :
    ∃ items, buildTagItems t = some items ∧
      (joinBytes (sortByLen items)).length + 32 < 4294967296 ∧
      items.length < 4294967296 ∧
      rt = headerPure (joinBytes (sortByLen items)).length items.length true ++
        (joinBytes (sortByLen items) ++
          headerPure (joinBytes (sortByLen items)).length items.length false) := by
  rw [renderTag] at h
  split at h
  · next items hitems =>
    split at h
    · next hd ft hhd hft =>
      rw [headerFooterBytes] at hhd hft
      split at hhd
      · next sz cnt hsz hcnt =>
        obtain ⟨hsz1, hsz2⟩ := uint32le_some _ _ hsz
        obtain ⟨hcnt1, hcnt2⟩ := uint32le_some _ _ hcnt
        split at hft
        · next sz2 cnt2 hsz3 hcnt3 =>
          obtain ⟨_, hsz4⟩ := uint32le_some _ _ hsz3
          obtain ⟨_, hcnt4⟩ := uint32le_some _ _ hcnt3
          cases h
          cases hhd
          cases hft
          refine ⟨items, hitems, hsz1, hcnt1, ?_⟩
          rw [headerPure, headerPure, hsz2, hcnt2, hsz4, hcnt4, List.append_assoc]
        · cases hft
      · cases hhd
    · cases h
  · cases h

theorem apev2Data_footer_at_end (G2 : Bytes) (L num : Nat)
    (hG : L + 32 ≤ G2.length) (hL : L + 32 < 4294967296)
    (hnum : num < 4294967296) :
    apev2Data (G2 ++ headerPure L num false) =
      some { start := some (fixBrokenness (G2 ++ headerPure L num false)
                             (G2.length - L - 32)),
             header := some (G2.length - L - 32),
             data := some (G2.length - L),
             footer := some G2.length,
             endPos := some (G2.length + 32),
             version := uint32pure 2000,
             size := some (L + 32),
             items := num,
             flags := HAS_HEADER,
             isAtStart := false,
             tag := some (slice (G2 ++ headerPure L num false)
                           (G2.length - L) (L + 32)) } := by
  have hfl : (headerPure L num false).length = 32 := length_headerPure ..
  have hlen : (G2 ++ headerPure L num false).length = G2.length + 32 := by
    simp [hfl]
  have hfield : ∀ q n, slice (G2 ++ headerPure L num false) (G2.length + q) n =
      slice (headerPure L num false) q n := by
    intro q n
    rw [slice_append_right _ _ _ _ (by omega)]
    congr 1
    omega
  have hcook : slice (G2 ++ headerPure L num false)
      ((G2 ++ headerPure L num false).length - 32) 8 = APETAGEX := by
    rw [hlen]
    have e : G2.length + 32 - 32 = G2.length + 0 := by omega
    rw [e, hfield]
    simp [headerPure, uint32pure, APETAGEX, slice]
  have hfind : find_metadata (G2 ++ headerPure L num false) =
      ⟨some G2.length, none, false⟩ := by
    rw [find_metadata, if_neg (by omega), if_pos hcook, hlen]
    have e : G2.length + 32 - 32 = G2.length := by omega
    rw [e]
  have h8 : slice (G2 ++ headerPure L num false) (G2.length + 8) 4 =
      uint32pure 2000 := by
    rw [hfield]
    simp [headerPure, uint32pure, APETAGEX, slice]
  have h12 : slice (G2 ++ headerPure L num false) (G2.length + 12) 4 =
      uint32pure (L + 32) := by
    rw [hfield]
    simp [headerPure, uint32pure, APETAGEX, slice]
  have h16 : slice (G2 ++ headerPure L num false) (G2.length + 16) 4 =
      uint32pure num := by
    rw [hfield]
    simp [headerPure, uint32pure, APETAGEX, slice]
  have h20 : slice (G2 ++ headerPure L num false) (G2.length + 20) 4 =
      uint32pure HAS_HEADER := by
    rw [hfield]
    simp [headerPure, uint32pure, APETAGEX, HAS_HEADER, slice]
  rw [apev2Data]
  simp only [hfind, Option.getD_some, Option.getD_none, Nat.zero_max]
  rw [if_neg (by simp)]
  rw [h12, h16, h20, uint_le_uint32pure _ hL, uint_le_uint32pure _ hnum,
    uint_le_uint32pure _ (by decide : HAS_HEADER < 4294967296)]
  dsimp only
  rw [if_neg (show ¬ (G2.length + 32 < L + 32) by omega),
    if_pos (show HAS_HEADER &&& HAS_HEADER ≠ 0 by decide),
    if_neg (show ¬ (G2.length + 32 - (L + 32) < 32) by omega), h8]
  have e1 : G2.length + 32 - (L + 32) - 32 = G2.length - L - 32 := by omega
  have e2 : G2.length + 32 - (L + 32) = G2.length - L := by omega
  rw [e1, e2]

theorem joinBytes_cons (x : Bytes) (l : List Bytes) :
    joinBytes (x :: l) = x ++ joinBytes l := rfl

theorem valid_key_no_nul (k : Bytes) (h : is_valid_apev2_key k = true) :
    ∀ b ∈ k, b ≠ 0 := by
  intro b hb
  rw [is_valid_apev2_key] at h
  simp only [Bool.and_eq_true, List.all_eq_true, decide_eq_true_eq] at h
  have := h.1.2 b hb
  omega

theorem take4_of_append (x R : Bytes) (hx : x.length = 4) :
    slice (x ++ R) 0 4 = x := by
  rw [slice, List.drop_zero, List.take_left' hx]

theorem slice44 (x y R : Bytes) (hx : x.length = 4) (hy : y.length = 4) :
    slice (x ++ (y ++ R)) 4 4 = y := by
  rw [slice, List.drop_append_of_le_length (by omega),
    List.drop_eq_nil_of_le (by omega), List.nil_append, List.take_left' hy]

theorem drop8_append (x y R : Bytes) (hx : x.length = 4) (hy : y.length = 4) :
    (x ++ (y ++ R)).drop 8 = R := by
  rw [← List.append_assoc, List.drop_left' (by simp [hx, hy])]

theorem readNulKey_spec (key rest : Bytes) (hk : ∀ b ∈ key, b ≠ 0) :
    readNulKey (key ++ 0 :: rest) = (key, rest) := by
  induction key with
  | nil => simp [readNulKey]
  | cons b t ih =>
    have hb : b ≠ 0 := hk b (by simp)
    simp only [List.cons_append, readNulKey, if_neg hb, List.append_eq]
    rw [ih (fun x hx => hk x (by simp [hx]))]

theorem kind_shift_roundtrip (k : Nat) (h : k ≤ 2) :
    ((k <<< 1) &&& 6) >>> 1 = k := by
  interval_cases k <;> decide

theorem shiftLeft_one_lt (k : Nat) (h : k ≤ 2) : k <<< 1 < 4294967296 := by
  rw [Nat.shiftLeft_eq]
  omega

theorem parse_concat : ∀ (ps : List (Bytes × APEValueM)) (suffix : Bytes) (t0 : APEv2M),
    (∀ p ∈ ps, is_valid_apev2_key p.1 = true ∧ p.2.kind ≤ 2 ∧
      p.2.value.length < 4294967296) →
    parseItems ps.length
      (joinBytes (ps.map (fun q => internalPure q.1 q.2)) ++ suffix) t0
      = some (ps.foldl setPair t0) := by
  intro ps
  induction ps with
  | nil =>
    intro suffix t0 hv
    rfl
  | cons p ps ih =>
    intro suffix t0 hv
    obtain ⟨hvk, hkind, hvlen⟩ := hv p (by simp)
    have hshape : joinBytes ((p :: ps).map fun q => internalPure q.1 q.2) ++ suffix =
        uint32pure p.2.value.length ++ (uint32pure (p.2.kind <<< 1) ++
          (p.1 ++ 0 :: (p.2.value ++
            (joinBytes (ps.map fun q => internalPure q.1 q.2) ++ suffix)))) := by
      simp [joinBytes, internalPure, List.append_assoc]
    rw [List.length_cons, hshape, parseItems,
      take4_of_append _ _ (length_uint32pure _),
      slice44 _ _ _ (length_uint32pure _) (length_uint32pure _),
      uint_le_uint32pure _ hvlen, uint_le_uint32pure _ (shiftLeft_one_lt _ hkind)]
    dsimp only
    rw [kind_shift_roundtrip _ hkind, if_neg (by omega),
      drop8_append _ _ _ (length_uint32pure _) (length_uint32pure _),
      readNulKey_spec _ _ (valid_key_no_nul _ hvk)]
    dsimp only
    rw [List.take_left, List.drop_left, apeSet, if_pos hvk]
    dsimp only
    rw [List.foldl_cons]
    exact ih _ _ (fun q hq => hv q (by simp [hq]))

theorem fold_dict_lookup : ∀ (ps : List (Bytes × APEValueM)) (t0 : APEv2M) (k : Bytes),
    getAssoc (ps.foldl setPair t0).dict k =
      (match ps.reverse.find? (fun p => decide (lowerB p.1 = k)) with
       | some p => some p.2
       | none => getAssoc t0.dict k) := by
  intro ps
  induction ps with
  | nil => intro t0 k; rfl
  | cons p ps ih =>
    intro t0 k
    rw [List.foldl_cons, ih, List.reverse_cons, List.find?_append]
    cases hf : ps.reverse.find? (fun q => decide (lowerB q.1 = k)) with
    | some q => rfl
    | none =>
      simp only [Option.none_or]
      by_cases hk : lowerB p.1 = k <;>
        simp [List.find?, hk, setPair, getAssoc_setAssoc]

theorem fold_casemap_lookup : ∀ (ps : List (Bytes × APEValueM)) (t0 : APEv2M) (k : Bytes),
    getAssoc (ps.foldl setPair t0).casemap k =
      (match ps.reverse.find? (fun p => decide (lowerB p.1 = k)) with
       | some p => some p.1
       | none => getAssoc t0.casemap k) := by
  intro ps
  induction ps with
  | nil => intro t0 k; rfl
  | cons p ps ih =>
    intro t0 k
    rw [List.foldl_cons, ih, List.reverse_cons, List.find?_append]
    cases hf : ps.reverse.find? (fun q => decide (lowerB q.1 = k)) with
    | some q => rfl
    | none =>
      simp only [Option.none_or]
      by_cases hk : lowerB p.1 = k <;>
        simp [List.find?, hk, setPair, getAssoc_setAssoc]

theorem find_unique_of_nodup {β : Type} (key : β → Bytes) :
    ∀ (l : List β) (k : Bytes), (l.map key).Nodup →
    ∀ p, p ∈ l → key p = k → l.find? (fun q => decide (key q = k)) = some p := by
  intro l
  induction l with
  | nil =>
    intro k h p hp
    cases hp
  | cons a t ih =>
    intro k h p hp hk
    simp only [List.map_cons, List.nodup_cons] at h
    by_cases ha : key a = k
    · have hpa : p = a := by
        rcases List.mem_cons.mp hp with h1 | h1
        · exact h1
        · exact absurd (by rw [ha, ← hk]; exact List.mem_map_of_mem key h1 :
            key a ∈ List.map key t) h.1
      rw [List.find?_cons_of_pos _ (by simpa using ha), hpa]
    · rcases List.mem_cons.mp hp with h1 | h1
      · exact absurd (h1 ▸ hk) ha
      · rw [List.find?_cons_of_neg _ (by simpa using ha)]
        exact ih k h.2 p h1 hk

theorem find_match_perm {β : Type} (key : β → Bytes) (l l2 : List β) (hp : l.Perm l2)
    (hnd : (l2.map key).Nodup) (k : Bytes) :
    l.find? (fun q => decide (key q = k)) = l2.find? (fun q => decide (key q = k)) := by
  cases hf : l2.find? (fun q => decide (key q = k)) with
  | some q =>
    have hq := List.find?_some hf
    have hqm : q ∈ l2 := List.mem_of_find?_eq_some hf
    have hnd1 : (l.map key).Nodup := ((hp.map key).nodup_iff).mpr hnd
    exact find_unique_of_nodup key l k hnd1 q (hp.mem_iff.mpr hqm) (by simpa using hq)
  | none =>
    rw [List.find?_eq_none] at hf ⊢
    intro x hx
    exact hf x (hp.subset hx)

theorem getAssoc_eq_find {α : Type} : ∀ (l : List (Bytes × α)) (k : Bytes),
    getAssoc l k = (l.find? (fun e => decide (e.1 = k))).map Prod.snd := by
  intro l
  induction l with
  | nil => intro k; rfl
  | cons e t ih =>
    intro k
    by_cases h : e.1 = k
    · rw [List.find?_cons_of_pos _ (by simpa using h)]
      obtain ⟨k1, v1⟩ := e
      simp only at h
      rw [getAssoc, if_pos h]
      rfl
    · rw [List.find?_cons_of_neg _ (by simpa using h)]
      obtain ⟨k1, v1⟩ := e
      simp only at h
      rw [getAssoc, if_neg h]
      exact ih k

theorem getAssoc_mem_nodup {α : Type} (l : List (Bytes × α)) (k : Bytes) (v : α)
    (hnd : (l.map Prod.fst).Nodup) (hm : (k, v) ∈ l) : getAssoc l k = some v := by
  rw [getAssoc_eq_find,
    find_unique_of_nodup Prod.fst l k hnd (k, v) hm rfl]
  rfl

theorem internalBytes_pure (k : Bytes) (v : APEValueM) (bs : Bytes)
    (h : internalBytes k v = some bs) :
    bs = internalPure k v ∧ v.value.length < 4294967296 := by
  rw [internalBytes] at h
  split at h
  · next a b2 ha hb =>
    obtain ⟨ha1, ha2⟩ := uint32le_some _ _ ha
    obtain ⟨hb1, hb2⟩ := uint32le_some _ _ hb
    cases h
    exact ⟨by rw [internalPure, ha2, hb2], ha1⟩
  · cases h

theorem wf_entry_facts (t : APEv2M) (hwf : WFModel t = true) :
    (t.dict.map Prod.fst).Nodup ∧
    ∀ e ∈ t.dict, getAssoc t.casemap e.1 = some ((getAssoc t.casemap e.1).getD e.1) ∧
      lowerB ((getAssoc t.casemap e.1).getD e.1) = e.1 ∧
      is_valid_apev2_key ((getAssoc t.casemap e.1).getD e.1) = true ∧
      e.2.kind ≤ 2 := by
  rw [WFModel] at hwf
  simp only [Bool.and_eq_true, List.all_eq_true, decide_eq_true_eq] at hwf
  refine ⟨hwf.1, ?_⟩
  intro e he
  have hh := hwf.2 e he
  rw [wfEntry] at hh
  cases hc : getAssoc t.casemap e.1 with
  | none => rw [hc] at hh; cases hh
  | some ck =>
    rw [hc] at hh
    simp only [Bool.and_eq_true, decide_eq_true_eq] at hh
    simp only [hc, Option.getD_some]
    exact ⟨trivial, hh.1.1, hh.1.2, hh.2⟩

theorem buildTagItems_eq (t : APEv2M) (hwf : WFModel t = true) (items : List Bytes)
    (hb : buildTagItems t = some items) :
    items = (pairList t).map (fun p => internalPure p.1 p.2) ∧
    ∀ e ∈ t.dict, e.2.value.length < 4294967296 := by
  obtain ⟨hnd, hent⟩ := wf_entry_facts t hwf
  rw [buildTagItems, apeKeys] at hb
  suffices hgen : ∀ (l : List (Bytes × APEValueM)), (∀ e ∈ l, e ∈ t.dict) →
      ∀ its, buildItemsLoop t (l.map (fun e => (getAssoc t.casemap e.1).getD e.1))
        = some its →
      its = l.map (fun e => internalPure ((getAssoc t.casemap e.1).getD e.1) e.2) ∧
      ∀ e ∈ l, e.2.value.length < 4294967296 by
    have hm := hgen t.dict (fun e he => he) items hb
    refine ⟨?_, hm.2⟩
    rw [hm.1, pairList, List.map_map]
    rfl
  intro l
  induction l with
  | nil =>
    intro _ its h
    cases h
    refine ⟨rfl, ?_⟩
    intro q hq
    cases hq
  | cons e l ih =>
    intro hsub its h
    have he := hsub e (by simp)
    obtain ⟨hc, hl, hv, hk⟩ := hent e he
    rw [List.map_cons, buildItemsLoop] at h
    rw [buildOneItem, if_pos hv, hl] at h
    have hde : getAssoc t.dict e.1 = some e.2 := by
      apply getAssoc_mem_nodup _ _ _ hnd
      simpa using he
    rw [hde] at h
    dsimp only at h
    cases hib : internalBytes ((getAssoc t.casemap e.1).getD e.1) e.2 with
    | none => rw [hib] at h; cases h
    | some b =>
      rw [hib] at h
      obtain ⟨hbp, hblen⟩ := internalBytes_pure _ _ _ hib
      cases hrest : buildItemsLoop t
          (l.map (fun e => (getAssoc t.casemap e.1).getD e.1)) with
      | none => rw [hrest] at h; cases h
      | some bs =>
        rw [hrest] at h
        cases h
        obtain ⟨hbs, hlens⟩ := ih (fun q hq => hsub q (by simp [hq])) bs hrest
        refine ⟨by rw [List.map_cons, ← hbs, hbp], ?_⟩
        intro q hq
        rcases List.mem_cons.mp hq with rfl | hq2
        · exact hblen
        · exact hlens q hq2

theorem map_insLenSortedP (x : Bytes × APEValueM) (l : List (Bytes × APEValueM)) :
    (insLenSortedP x l).map (fun p => internalPure p.1 p.2) =
      insLenSorted (internalPure x.1 x.2) (l.map (fun p => internalPure p.1 p.2)) := by
  induction l with
  | nil => rfl
  | cons y t ih =>
    by_cases h : (internalPure x.1 x.2).length ≤ (internalPure y.1 y.2).length <;>
      simp [insLenSortedP, insLenSorted, h, ih]

theorem map_sortPairs (l : List (Bytes × APEValueM)) :
    (sortPairsByLen l).map (fun p => internalPure p.1 p.2) =
      sortByLen (l.map (fun p => internalPure p.1 p.2)) := by
  induction l with
  | nil => rfl
  | cons p t ih =>
    show (insLenSortedP p (sortPairsByLen t)).map _ = insLenSorted _ _
    rw [map_insLenSortedP, ih]
    rfl

theorem insLenSortedP_perm (x : Bytes × APEValueM) (l : List (Bytes × APEValueM)) :
    (insLenSortedP x l).Perm (x :: l) := by
  induction l with
  | nil => exact List.Perm.refl _
  | cons y t ih =>
    rw [insLenSortedP]
    split
    · exact List.Perm.refl _
    · exact (ih.cons y).trans (List.Perm.swap x y t)

theorem sortPairs_perm (l : List (Bytes × APEValueM)) : (sortPairsByLen l).Perm l := by
  induction l with
  | nil => exact List.Perm.refl _
  | cons p t ih =>
    exact (insLenSortedP_perm p (sortPairsByLen t)).trans (ih.cons p)

theorem pairList_keys (t : APEv2M) (hwf : WFModel t = true) :
    (pairList t).map (fun p => lowerB p.1) = t.dict.map Prod.fst := by
  obtain ⟨_, hent⟩ := wf_entry_facts t hwf
  rw [pairList, List.map_map]
  apply List.map_congr_left
  intro e he
  exact (hent e he).2.1

theorem pairList_find_dict (t : APEv2M) (hwf : WFModel t = true) (k : Bytes) :
    ((pairList t).find? (fun p => decide (lowerB p.1 = k))).map Prod.snd
      = getAssoc t.dict k ∧
    ∀ p, (pairList t).find? (fun p => decide (lowerB p.1 = k)) = some p →
      getAssoc t.casemap k = some p.1 := by
  obtain ⟨hnd, hent⟩ := wf_entry_facts t hwf
  suffices hgen : ∀ (l : List (Bytes × APEValueM)), (∀ e ∈ l, e ∈ t.dict) →
      ((l.map (fun e => ((getAssoc t.casemap e.1).getD e.1, e.2))).find?
          (fun p => decide (lowerB p.1 = k))).map Prod.snd = getAssoc l k ∧
      ∀ p, (l.map (fun e => ((getAssoc t.casemap e.1).getD e.1, e.2))).find?
          (fun p => decide (lowerB p.1 = k)) = some p →
        getAssoc t.casemap k = some p.1 by
    exact hgen t.dict (fun e he => he)
  intro l
  induction l with
  | nil => exact fun _ => ⟨rfl, fun p hp => by cases hp⟩
  | cons e l ih =>
    intro hsub
    have he := hsub e (by simp)
    obtain ⟨hc, hl, hv, hk2⟩ := hent e he
    obtain ⟨ihd, ihc⟩ := ih (fun q hq => hsub q (by simp [hq]))
    by_cases hek : e.1 = k
    · constructor
      · rw [List.map_cons,
          List.find?_cons_of_pos _ (by simpa using (hek ▸ hl))]
        simp only [Option.map_some']
        obtain ⟨k1, v1⟩ := e
        simp only at hek
        rw [getAssoc, if_pos hek]
      · intro p hp
        rw [List.map_cons,
          List.find?_cons_of_pos _ (by simpa using (hek ▸ hl))] at hp
        cases hp
        rw [← hek, hc]
        simp
    · constructor
      · rw [List.map_cons,
          List.find?_cons_of_neg _ (by simpa using (fun hh => hek (hl ▸ hh))),
          ihd]
        obtain ⟨k1, v1⟩ := e
        simp only at hek
        rw [getAssoc, if_neg hek]
      · intro p hp
        rw [List.map_cons,
          List.find?_cons_of_neg _ (by simpa using (fun hh => hek (hl ▸ hh)))] at hp
        exact ihc p hp

theorem save_shape (F : Bytes) (t : APEv2M) (b : Nat) (R : Bytes)
    (hsave : apev2Save F t b = some R) :
    ∃ base rt, renderTag t = some rt ∧ R = base ++ rt := by
  rw [apev2Save] at hsave
  split at hsave
  · next d rt hd hrt =>
    split at hsave
    · split at hsave
      · split at hsave
        · cases hsave
          exact ⟨_, rt, hrt, rfl⟩
        · cases hsave
      · cases hsave
    · split at hsave
      · cases hsave
        exact ⟨_, rt, hrt, rfl⟩
      · cases hsave
        exact ⟨_, rt, hrt, rfl⟩
  · cases hsave

/-- C3: saving a valid tag model to a file and then loading that file yields
a model equal to the saved one: the same case-folded keys, the same kind and
payload bytes for each key, and each key's reported casing equal to the
casing used in the last write of that key. -/
theorem save_load_roundtrip (F : Bytes) (t : APEv2M) (b : Nat) (R : Bytes)
    (hwf : WFModel t = true) (hsave : apev2Save F t b = some R) :
    ∃ t2, apev2Load R = some t2 ∧ ModelEquiv t2 t := by
  obtain ⟨base, rt, hrt, hR⟩ := save_shape F t b R hsave
  obtain ⟨items, hitems, hszb, hnumb, hrteq⟩ := renderTag_decomp t rt hrt
  obtain ⟨hitemseq, hvlens⟩ := buildTagItems_eq t hwf items hitems
  obtain ⟨hnd, hent⟩ := wf_entry_facts t hwf
  have hmap : sortByLen items = (sortPairsByLen (pairList t)).map
      (fun p => internalPure p.1 p.2) := by
    rw [hitemseq, ← map_sortPairs]
  have hperm : (sortPairsByLen (pairList t)).Perm (pairList t) := sortPairs_perm _
  have hvalid : ∀ p ∈ sortPairsByLen (pairList t), is_valid_apev2_key p.1 = true ∧
      p.2.kind ≤ 2 ∧ p.2.value.length < 4294967296 := by
    intro p hp
    have hp2 := hperm.subset hp
    rw [pairList] at hp2
    obtain ⟨e, he, rfl⟩ := List.mem_map.mp hp2
    exact ⟨(hent e he).2.2.1, (hent e he).2.2.2, hvlens e he⟩
  have hR2 : R = ((base ++ headerPure (joinBytes (sortByLen items)).length
        items.length true) ++ joinBytes (sortByLen items)) ++
      headerPure (joinBytes (sortByLen items)).length items.length false := by
    rw [hR, hrteq]
    simp [List.append_assoc]
  have hG2len : ((base ++ headerPure (joinBytes (sortByLen items)).length
        items.length true) ++ joinBytes (sortByLen items)).length =
      base.length + 32 + (joinBytes (sortByLen items)).length := by
    simp [length_headerPure]
    try omega
  have hdata := apev2Data_footer_at_end
    ((base ++ headerPure (joinBytes (sortByLen items)).length items.length true)
      ++ joinBytes (sortByLen items))
    (joinBytes (sortByLen items)).length items.length
    (by rw [hG2len]; omega) hszb hnumb
  have htag : slice (((base ++ headerPure (joinBytes (sortByLen items)).length
        items.length true) ++ joinBytes (sortByLen items)) ++
        headerPure (joinBytes (sortByLen items)).length items.length false)
      (((base ++ headerPure (joinBytes (sortByLen items)).length items.length true)
        ++ joinBytes (sortByLen items)).length - (joinBytes (sortByLen items)).length)
      ((joinBytes (sortByLen items)).length + 32)
      = joinBytes (sortByLen items) ++
        headerPure (joinBytes (sortByLen items)).length items.length false := by
    have e1 : ((base ++ headerPure (joinBytes (sortByLen items)).length
          items.length true) ++ joinBytes (sortByLen items)).length -
        (joinBytes (sortByLen items)).length =
        (base ++ headerPure (joinBytes (sortByLen items)).length
          items.length true).length := by
      rw [hG2len]
      simp [length_headerPure]
      try omega
    have e3 : (joinBytes (sortByLen items)).length + 32 =
        (joinBytes (sortByLen items) ++ headerPure
          (joinBytes (sortByLen items)).length items.length false).length := by
      simp [length_headerPure]
    rw [e1, e3, List.append_assoc, slice_all]
  have hne : joinBytes (sortByLen items) ++
      headerPure (joinBytes (sortByLen items)).length items.length false ≠ [] := by
    intro hh
    have := congrArg List.length hh
    simp [length_headerPure] at this
  have hlen_ps : items.length = (sortPairsByLen (pairList t)).length := by
    rw [hitemseq, List.length_map, hperm.length_eq]
  have htags_eq : joinBytes (sortByLen items) =
      joinBytes ((sortPairsByLen (pairList t)).map (fun p => internalPure p.1 p.2)) := by
    rw [hmap]
  rw [apev2Load, hR2, hdata]
  dsimp only
  rw [htag, if_neg hne]
  have hparse := parse_concat (sortPairsByLen (pairList t))
    (headerPure (joinBytes (sortByLen items)).length items.length false) ⟨[], []⟩ hvalid
  rw [← htags_eq, ← hlen_ps] at hparse
  rw [hparse]
  refine ⟨_, rfl, ?_, ?_⟩
  · intro k
    rw [fold_dict_lookup]
    rw [find_match_perm (fun p => lowerB p.1) _ _
      ((List.reverse_perm _).trans hperm)
      (by rw [pairList_keys t hwf]; exact hnd) k]
    have hfd := (pairList_find_dict t hwf k).1
    cases hf : (pairList t).find? (fun p => decide (lowerB p.1 = k)) with
    | some p =>
      rw [hf, Option.map_some'] at hfd
      exact hfd
    | none =>
      rw [hf] at hfd
      exact hfd
  · intro k hk
    rw [fold_casemap_lookup]
    rw [find_match_perm (fun p => lowerB p.1) _ _
      ((List.reverse_perm _).trans hperm)
      (by rw [pairList_keys t hwf]; exact hnd) k]
    have hfd := (pairList_find_dict t hwf k).1
    have hfc := (pairList_find_dict t hwf k).2
    cases hf : (pairList t).find? (fun p => decide (lowerB p.1 = k)) with
    | some p =>
      exact (hfc p hf).symm
    | none =>
      rw [hf] at hfd
      rw [← hfd] at hk
      cases hk

theorem save_load_roundtrip_witness :
    WFModel ⟨[([97, 98], [65, 66])], [([97, 98], ⟨0, [88]⟩)]⟩ = true ∧
    ∃ t2, apev2Load ((apev2Save []
        ⟨[([97, 98], [65, 66])], [([97, 98], ⟨0, [88]⟩)]⟩ 4).getD []) = some t2 ∧
      ModelEquiv t2 ⟨[([97, 98], [65, 66])], [([97, 98], ⟨0, [88]⟩)]⟩ :=
  ⟨by decide, save_load_roundtrip [] ⟨[([97, 98], [65, 66])], [([97, 98], ⟨0, [88]⟩)]⟩
    4 _ (by decide) rfl⟩

theorem find_metadata_cases (f : Bytes) :
    find_metadata f = findStep3 f ∨ (find_metadata f).isAtStart = false := by
  rw [find_metadata]
  by_cases h1 : f.length < 32
  · rw [if_pos h1]; right; rfl
  · rw [if_neg h1]
    by_cases h2 : slice f (f.length - 32) 8 = APETAGEX
    · rw [if_pos h2]; right; rfl
    · rw [if_neg h2]
      by_cases h3 : f.length < 128
      · rw [if_pos h3]; left; rfl
      · rw [if_neg h3]
        by_cases h4 : slice f (f.length - 128) 3 = ID3TAG
        · rw [if_pos h4]
          by_cases h5 : f.length < 160
          · rw [if_pos h5]; left; rfl
          · rw [if_neg h5]
            by_cases h6 : slice f (f.length - 160) 8 = APETAGEX
            · rw [if_pos h6]; right; rfl
            · rw [if_neg h6]
              by_cases h7 : slice f (f.length - 137) 9 = LYRICS200
              · rw [if_pos h7]
                cases parseIntBytes (slice f (f.length - 143) 6) with
                | none => left; rfl
                | some off =>
                  dsimp only
                  by_cases h8 : (f.length : Int) - 175 - off < 0
                  · rw [if_pos h8]; left; rfl
                  · rw [if_neg h8]
                    by_cases h9 : slice f ((f.length : Int) - 175 - off).toNat 8
                        = APETAGEX
                    · rw [if_pos h9]; right; rfl
                    · rw [if_neg h9]; left; rfl
              · rw [if_neg h7]; left; rfl
        · rw [if_neg h4]; left; rfl

theorem apev2Data_start_none (F : Bytes) (d : APEData) (hd : apev2Data F = some d)
    (hs : d.start = none) : d.isAtStart = false := by
  rw [apev2Data] at hd
  split at hd
  · next hcond =>
    cases hd
    show (find_metadata F).isAtStart = false
    rcases find_metadata_cases F with hcase | hcase
    · rw [hcase] at hcond ⊢
      rw [findStep3] at hcond ⊢
      split_ifs at hcond ⊢
      · exact absurd hcond.1 (by simp)
      · rfl
    · exact hcase
  · dsimp only at hd
    split at hd
    · split at hd
      · cases hd
        simp at hs
      · split at hd
        · split at hd
          · cases hd
          · split at hd
            · split at hd
              · cases hd
              · cases hd
                simp at hs
            · cases hd
              simp at hs
        · cases hd
    · cases hd

/-- C10: when the locator finds no existing tag (`start` is unset), save
performs no deletion or truncation: every pre-existing byte of the file is
left unchanged and the new header, items and footer are purely appended at
end-of-file. -/
theorem save_appends_when_no_tag (F : Bytes) (t : APEv2M) (b : Nat) (d : APEData)
    (hd : apev2Data F = some d) (hstart : d.start = none) (rt : Bytes)
    (hrt : renderTag t = some rt) :
    apev2Save F t b = some (F ++ rt) := by
  have hias := apev2Data_start_none F d hd hstart
  rw [apev2Save, hd, hrt]
  dsimp only
  rw [if_neg (show ¬ (d.isAtStart = true) by simp [hias]), hstart]

theorem save_appends_when_no_tag_witness :
    apev2Save (ID3TAG ++ List.replicate 125 0) ⟨[], []⟩ 4 =
      some ((ID3TAG ++ List.replicate 125 0) ++ (renderTag ⟨[], []⟩).getD []) :=
  save_appends_when_no_tag (ID3TAG ++ List.replicate 125 0) ⟨[], []⟩ 4
    {} (by set_option maxRecDepth 8000 in decide) rfl
    ((renderTag ⟨[], []⟩).getD []) rfl

/-- C8: on every save of a tag to a file in which a tag was located, the
entire previously located span is removed first (a tag at the start is
spliced out; otherwise the file is truncated at the tag's start, which also
drops any legacy ID3v1 trailer the span subsumed) and the replacement
header, items and footer are written at end-of-file — never at the start,
even when the original tag was at the start. -/
theorem save_removes_old_span_and_appends (F : Bytes) (t : APEv2M) (b : Nat)
    (d : APEData) (st : Nat) (hd : apev2Data F = some d) (hst : d.start = some st)
    (R : Bytes) (hsave : apev2Save F t b = some R) :
    ∃ rt, renderTag t = some rt ∧
      ((d.isAtStart = true →
        ∃ e, d.endPos = some e ∧ R = F.take st ++ F.drop e ++ rt) ∧
       (d.isAtStart = false → R = pyTruncate F st ++ rt)) := by
  rw [apev2Save, hd] at hsave
  cases hrt : renderTag t with
  | none =>
    rw [hrt] at hsave
    cases hsave
  | some rt =>
    rw [hrt] at hsave
    dsimp only at hsave
    refine ⟨rt, rfl, ?_, ?_⟩
    · intro hias
      rw [if_pos hias, hst] at hsave
      cases hend : d.endPos with
      | none =>
        rw [hend] at hsave
        cases hsave
      | some e =>
        rw [hend] at hsave
        dsimp only at hsave
        split at hsave
        · next hok =>
          cases hsave
          refine ⟨e, rfl, ?_⟩
          have hne : ¬ (e - st = 0 ∨ F.length < st + (e - st)) := by
            intro hc
            rw [((splice_argument_checks F (e - st) st b).2.2.1).mpr hc] at hok
            cases hok
          push_neg at hne
          rw [delete_bytes_file_eq F (e - st) st b (by omega) (by omega)]
          have he : st + (e - st) = e := by omega
          rw [he]
        · cases hsave
    · intro hias
      rw [if_neg (by simp [hias]), hst] at hsave
      dsimp only at hsave
      cases hsave
      rfl

theorem save_removes_old_span_witness :
    apev2Save ([1, 2, 3] ++ (renderTag (⟨[], []⟩ : APEv2M)).getD [])
        (⟨[], []⟩ : APEv2M) 4 =
      some (pyTruncate ([1, 2, 3] ++ (renderTag (⟨[], []⟩ : APEv2M)).getD []) 3 ++
        (renderTag (⟨[], []⟩ : APEv2M)).getD []) := by
  obtain ⟨rt, hrt, hcase⟩ := save_removes_old_span_and_appends
    ([1, 2, 3] ++ (renderTag (⟨[], []⟩ : APEv2M)).getD []) ⟨[], []⟩ 4
    ((apev2Data ([1, 2, 3] ++ (renderTag (⟨[], []⟩ : APEv2M)).getD [])).getD {})
    3 (by set_option maxRecDepth 8000 in decide)
    (by set_option maxRecDepth 8000 in decide)
    ((apev2Save ([1, 2, 3] ++ (renderTag (⟨[], []⟩ : APEv2M)).getD [])
      (⟨[], []⟩ : APEv2M) 4).getD [])
    (by set_option maxRecDepth 8000 in decide)
  have hR := hcase.2 (by set_option maxRecDepth 8000 in decide)
  have hrt0 : rt = (renderTag (⟨[], []⟩ : APEv2M)).getD [] := by
    have h2 : renderTag (⟨[], []⟩ : APEv2M) =
        some ((renderTag (⟨[], []⟩ : APEv2M)).getD []) := rfl
    rw [h2] at hrt
    exact (Option.some_inj.mp hrt).symm
  rw [hrt0] at hR
  rw [show apev2Save ([1, 2, 3] ++ (renderTag (⟨[], []⟩ : APEv2M)).getD [])
      (⟨[], []⟩ : APEv2M) 4 =
    some ((apev2Save ([1, 2, 3] ++ (renderTag (⟨[], []⟩ : APEv2M)).getD [])
      (⟨[], []⟩ : APEv2M) 4).getD []) from rfl, hR]

theorem fixBrokennessAux_congr (file : Bytes) : ∀ start fuel fuel2,
    start ≤ fuel → start ≤ fuel2 →
    fixBrokennessAux file fuel start = fixBrokennessAux file fuel2 start := by
  intro start
  induction start using Nat.strong_induction_on with
  | _ start ih =>
    intro fuel fuel2 h1 h2
    match fuel, fuel2 with
    | 0, 0 => rfl
    | 0, f2 + 1 =>
      have hz : start = 0 := by omega
      subst hz
      simp [fixBrokennessAux]
    | f1 + 1, 0 =>
      have hz : start = 0 := by omega
      subst hz
      simp [fixBrokennessAux]
    | f1 + 1, f2 + 1 =>
      show (if start = 0 then 0 else if start < 24 then start
        else if slice file (start - 24) 8 = APETAGEX then
          fixBrokennessAux file f1 (start - 24) else start) =
        (if start = 0 then 0 else if start < 24 then start
        else if slice file (start - 24) 8 = APETAGEX then
          fixBrokennessAux file f2 (start - 24) else start)
      by_cases hz : start = 0
      · simp [hz]
      · by_cases h24 : start < 24
        · simp [hz, h24]
        · rw [if_neg hz, if_neg h24, if_neg hz, if_neg h24]
          split
          · exact ih (start - 24) (by omega) f1 f2 (by omega) (by omega)
          · rfl

theorem fixBrokenness_step (file : Bytes) (start : Nat) :
    fixBrokenness file start =
      if start = 0 then 0
      else if start < 24 then start
      else if slice file (start - 24) 8 = APETAGEX then fixBrokenness file (start - 24)
      else start := by
  rw [fixBrokenness, fixBrokenness]
  cases start with
  | zero => simp [fixBrokennessAux]
  | succ n =>
    show (if n + 1 = 0 then 0 else if n + 1 < 24 then n + 1
      else if slice file (n + 1 - 24) 8 = APETAGEX then
        fixBrokennessAux file n (n + 1 - 24) else n + 1) = _
    by_cases hz : n + 1 < 24
    · simp [hz]
    · rw [if_neg (show ¬ (n + 1 = 0) by omega), if_neg hz,
        if_neg (show ¬ (n + 1 = 0) by omega), if_neg hz]
      split
      · exact fixBrokennessAux_congr file (n + 1 - 24) n (n + 1 - 24)
          (by omega) le_rfl
      · rfl

theorem length_repChunk (c : Bytes) : ∀ n, (repChunk c n).length = n * c.length := by
  intro n
  induction n with
  | zero => simp [repChunk]
  | succ m ih =>
    show (c ++ repChunk c m).length = _
    rw [List.length_append, ih]
    ring

theorem slice_repChunk (c rest : Bytes) (hclen : c.length = 24) :
    ∀ k j, j < k → slice (repChunk c k ++ rest) (24 * j) 8 = c.take 8 := by
  intro k
  induction k with
  | zero =>
    intro j hj
    omega
  | succ m ih =>
    intro j hj
    cases j with
    | zero =>
      show slice ((c ++ repChunk c m) ++ rest) 0 8 = c.take 8
      rw [slice, List.drop_zero, List.append_assoc,
        List.take_append_of_le_length (by omega)]
    | succ i =>
      show slice ((c ++ repChunk c m) ++ rest) (24 * (i + 1)) 8 = c.take 8
      rw [List.append_assoc, slice_append_right _ _ _ _ (by omega)]
      have e : 24 * (i + 1) - c.length = 24 * i := by omega
      rw [e]
      exact ih i (by omega)

theorem fixBrokenness_chain (G rest c : Bytes) (hce : c.take 8 = APETAGEX)
    (hclen : c.length = 24)
    (hG : G.length < 24 ∨ slice G (G.length - 24) 8 ≠ APETAGEX) (k : Nat) :
    ∀ j, j ≤ k →
      fixBrokenness (G ++ (repChunk c k ++ rest)) (G.length + 24 * j) = G.length := by
  intro j
  induction j with
  | zero =>
    intro _
    rw [fixBrokenness_step]
    by_cases hz : G.length = 0
    · simp [hz]
    · by_cases h24 : G.length < 24
      · simp [hz, h24]
      · rcases hG with hG | hG
        · omega
        · rw [Nat.mul_zero, Nat.add_zero, if_neg hz, if_neg h24,
            slice_append_left _ _ _ _ (by omega), if_neg hG]
  | succ i ih =>
    intro hjk
    rw [fixBrokenness_step]
    have hcook : slice (G ++ (repChunk c k ++ rest)) (G.length + 24 * (i + 1) - 24) 8
        = APETAGEX := by
      have e : G.length + 24 * (i + 1) - 24 = G.length + 24 * i := by omega
      rw [e, slice_append_right _ _ _ _ (by omega)]
      have e2 : G.length + 24 * i - G.length = 24 * i := by omega
      rw [e2, slice_repChunk c rest hclen k i (by omega), hce]
    rw [if_neg (by omega), if_neg (by omega), if_pos hcook]
    have e : G.length + 24 * (i + 1) - 24 = G.length + 24 * i := by omega
    rw [e]
    exact ih (by omega)

/-- C6: a flat tag preceded by `k` stray 24-byte copies of its own header
(the residue of the known buggy legacy writer) is loaded with its start at
the earliest stray copy, and delete removes the whole span from that copy
through the tag's end, leaving only the bytes that preceded it. -/
theorem legacy_stray_header_chain (G : Bytes) (t : APEv2M) (k : Nat) (rt : Bytes)
    (hrt : renderTag t = some rt)
    (hG : G.length < 24 ∨ slice G (G.length - 24) 8 ≠ APETAGEX) :
    ∃ d, apev2Data (G ++ (repChunk (rt.take 24) k ++ rt)) = some d ∧
      d.start = some G.length ∧
      apev2Delete (G ++ (repChunk (rt.take 24) k ++ rt)) = some G := by
  obtain ⟨items, hitems, hszb, hnumb, hrteq⟩ := renderTag_decomp t rt hrt
  have hhdlen : (headerPure (joinBytes (sortByLen items)).length items.length
      true).length = 32 := length_headerPure ..
  have hrtlen : rt.length = 64 + (joinBytes (sortByLen items)).length := by
    rw [hrteq]
    simp [length_headerPure]
    omega
  have hclen : (rt.take 24).length = 24 := by
    simp [hrtlen]
    omega
  have hce : (rt.take 24).take 8 = APETAGEX := by
    rw [List.take_take]
    have hm : min 8 24 = 8 := by omega
    rw [hm, hrteq,
      List.take_append_of_le_length (by rw [length_headerPure]; omega)]
    simp [headerPure, uint32pure, APETAGEX]
  have hfile : G ++ (repChunk (rt.take 24) k ++ rt) =
      (((G ++ repChunk (rt.take 24) k) ++
        headerPure (joinBytes (sortByLen items)).length items.length true) ++
        joinBytes (sortByLen items)) ++
        headerPure (joinBytes (sortByLen items)).length items.length false := by
    rw [hrteq]
    simp [List.append_assoc]
  have hG2len : ((((G ++ repChunk (rt.take 24) k) ++
      headerPure (joinBytes (sortByLen items)).length items.length true) ++
      joinBytes (sortByLen items))).length =
      G.length + 24 * k + 32 + (joinBytes (sortByLen items)).length := by
    simp [length_headerPure, length_repChunk, hclen]
    ring
  have hdata := apev2Data_footer_at_end
    (((G ++ repChunk (rt.take 24) k) ++
      headerPure (joinBytes (sortByLen items)).length items.length true) ++
      joinBytes (sortByLen items))
    (joinBytes (sortByLen items)).length items.length
    (by rw [hG2len]; omega) hszb hnumb
  rw [← hfile] at hdata
  have hstart : fixBrokenness (G ++ (repChunk (rt.take 24) k ++ rt))
      ((((G ++ repChunk (rt.take 24) k) ++
        headerPure (joinBytes (sortByLen items)).length items.length true) ++
        joinBytes (sortByLen items)).length -
        (joinBytes (sortByLen items)).length - 32) = G.length := by
    have e : (((G ++ repChunk (rt.take 24) k) ++
        headerPure (joinBytes (sortByLen items)).length items.length true) ++
        joinBytes (sortByLen items)).length -
        (joinBytes (sortByLen items)).length - 32 = G.length + 24 * k := by
      rw [hG2len]
      omega
    rw [e]
    exact fixBrokenness_chain G rt (rt.take 24) hce hclen hG k k le_rfl
  refine ⟨_, hdata, ?_, ?_⟩
  · dsimp only
    rw [hstart]
  · rw [apev2Delete, hdata]
    dsimp only
    rw [hstart]
    have hflen : (G ++ (repChunk (rt.take 24) k ++ rt)).length =
        G.length + 24 * k + 64 + (joinBytes (sortByLen items)).length := by
      simp [length_repChunk, hclen, hrtlen]
      ring
    have hsz : (((G ++ repChunk (rt.take 24) k) ++
        headerPure (joinBytes (sortByLen items)).length items.length true) ++
        joinBytes (sortByLen items)).length + 32 - G.length =
        24 * k + 64 + (joinBytes (sortByLen items)).length := by
      rw [hG2len]
      omega
    rw [hsz]
    rw [delete_bytes_file_eq _ _ _ _ (by omega) (by rw [hflen]; omega)]
    dsimp only
    rw [List.drop_eq_nil_of_le (by rw [hflen]; omega), List.append_nil,
      List.take_append_of_le_length le_rfl, List.take_length]
    rfl

theorem legacy_stray_header_chain_witness :
    ∃ d, apev2Data ([1, 2, 3] ++
        (repChunk (((renderTag (⟨[], []⟩ : APEv2M)).getD []).take 24) 1 ++
          (renderTag (⟨[], []⟩ : APEv2M)).getD [])) = some d ∧
      d.start = some 3 ∧
      apev2Delete ([1, 2, 3] ++
        (repChunk (((renderTag (⟨[], []⟩ : APEv2M)).getD []).take 24) 1 ++
          (renderTag (⟨[], []⟩ : APEv2M)).getD [])) = some [1, 2, 3] :=
  legacy_stray_header_chain [1, 2, 3] ⟨[], []⟩ 1
    ((renderTag (⟨[], []⟩ : APEv2M)).getD []) rfl (Or.inl (by decide))

theorem duplicate_key_collapse_witness :
    (APEv2M.mk [([97, 98], [97, 98])] [([97, 98], ⟨0, [51]⟩)]).dict.countP
      (fun e => decide (e.1 = lowerB [97, 98])) = 1 ∧
    getAssoc (APEv2M.mk [([97, 98], [97, 98])] [([97, 98], ⟨0, [51]⟩)]).dict
      (lowerB [97, 98]) = some ⟨0, [51]⟩ ∧
    getAssoc (APEv2M.mk [([97, 98], [97, 98])] [([97, 98], ⟨0, [51]⟩)]).casemap
      (lowerB [97, 98]) = some [97, 98] :=
  duplicate_key_collapse.2.2.2 ⟨[], []⟩ [65, 66] [97, 66] [97, 98]
    ⟨0, [49]⟩ ⟨0, [50]⟩ ⟨0, [51]⟩
    ⟨[([97, 98], [65, 66])], [([97, 98], ⟨0, [49]⟩)]⟩
    ⟨[([97, 98], [97, 66])], [([97, 98], ⟨0, [50]⟩)]⟩
    ⟨[([97, 98], [97, 98])], [([97, 98], ⟨0, [51]⟩)]⟩
    List.nodup_nil (by decide) (by decide) (by decide) (by decide) (by decide)

end Mutagen
